import Mathlib

/-!
Shallow embedding of the retrieval-synthesis-validation core of the
ultimate-bluetooth-rag worker, together with proofs about the claims of
its specification.  Every definition mirrors a function of the TypeScript
source (the file and lines are named in each doc comment).  JavaScript
numbers are modelled as rationals, strings as Lean strings or lists of
characters, external services (hashing, embedding, the KV store and the
vector indexes) as explicit parameters.
-/

/- ======================================================================
   Character classes of the JavaScript regexes used in corrections.ts
   ====================================================================== -/

/-- JavaScript whitespace (regex class \s, also removed by trim).
The common members; the source only ever produces spaces, tabs, newlines. -/
def jsWS (c : Char) : Bool :=
  c == ' ' || c == '\t' || c == '\n' || c == '\r' || c == '\x0b' ||
  c == '\x0c' || c == '\u00a0'

/-- The punctuation class removed by normalizeQuery, corrections.ts line 20:
question mark, bang, dot, comma, semicolon, colon, quotes, parens,
square brackets and curly braces. -/
def punctChar (c : Char) : Bool :=
  c == '?' || c == '!' || c == '.' || c == ',' || c == ';' || c == ':' ||
  c == '\'' || c == '\"' || c == '(' || c == ')' || c == '[' || c == ']' ||
  c == '\x7b' || c == '\x7d'

/-- JavaScript regex word characters [A-Za-z0-9_], the class deciding the
\b anchors of the stop-word regex in corrections.ts line 24. -/
def wordChar (c : Char) : Bool :=
  (decide ('a' ≤ c) && decide (c ≤ 'z')) ||
  (decide ('A' ≤ c) && decide (c ≤ 'Z')) ||
  (decide ('0' ≤ c) && decide (c ≤ '9')) || c == '_'

/-- Decimal digits, for the citation regexes of the validation agent. -/
def digitChar (c : Char) : Bool :=
  decide ('0' ≤ c) && decide (c ≤ '9')

/- ======================================================================
   String primitives: trim, whitespace collapsing, stop-word removal
   ====================================================================== -/

/-- Left trim: drop leading JavaScript whitespace. -/
def trimL (s : List Char) : List Char := s.dropWhile jsWS

/-- Right trim: drop trailing JavaScript whitespace. -/
def trimR : List Char → List Char
  | [] => []
  | c :: cs =>
    match trimR cs with
    | [] => if jsWS c then [] else [c]
    | r => c :: r

/-- String.prototype.trim: drop whitespace at both ends. -/
def trimWS (s : List Char) : List Char := trimR (trimL s)

/-- The replacement s.replace(regex of one or more whitespace, one space):
every maximal run of whitespace becomes a single space. -/
def collapseWS : List Char → List Char
  | [] => []
  | [c] => if jsWS c then [' '] else [c]
  | c :: d :: cs =>
    if jsWS c then
      if jsWS d then collapseWS (d :: cs) else ' ' :: collapseWS (d :: cs)
    else c :: collapseWS (d :: cs)

/-- The stop words removed by normalizeQuery, corrections.ts line 24. -/
def stopWords : List (List Char) :=
  (["what", "how", "why", "when", "where", "who", "which", "is", "are",
    "was", "were", "the", "a", "an", "do", "does", "did", "can", "could",
    "should", "would"].map String.data)

/-- Replacement of one matched stop word by the empty string. -/
def emitWord (w : List Char) : List Char := if w ∈ stopWords then [] else w

/-- Stop-word removal.  The source regex anchors each alternative between
two \b boundaries, so it removes exactly the maximal word-character runs
that equal a stop word; this scanner accumulates the current word run in
its first argument and flushes it through emitWord at every non-word
character and at the end. -/
def removeStopsAux : List Char → List Char → List Char
  | w, [] => emitWord w
  | w, c :: cs =>
    if wordChar c then removeStopsAux (w ++ [c]) cs
    else emitWord w ++ c :: removeStopsAux [] cs

def removeStops (s : List Char) : List Char := removeStopsAux [] s

/-- corrections.ts lines 15-27, normalizeQuery on the character list:
lowercase, trim, remove punctuation, collapse whitespace, remove stop
words, collapse whitespace again, trim. -/
def normList (s : List Char) : List Char :=
  trimWS (collapseWS (removeStops (collapseWS
    ((trimWS (s.map Char.toLower)).filter (fun c => !punctChar c)))))

/-- corrections.ts lines 15-27: normalizeQuery. -/
def normalizeQuery (s : String) : String := String.mk (normList s.data)

-- a worked example, matching the behaviour of the source on a real query
example :
    normalizeQuery "What is   the ATT MTU default value?" =
      "att mtu default value" := by decide

/- ======================================================================
   Idempotence of normalizeQuery (claim C10)
   ====================================================================== -/

theorem toLower_toLower (c : Char) : c.toLower.toLower = c.toLower := by
  unfold Char.toLower
  by_cases h : c.toNat ≥ 65 ∧ c.toNat ≤ 90
  · rw [if_pos h]
    have hv : (c.toNat + 32).isValidChar := by left; omega
    have h2 : (Char.ofNat (c.toNat + 32)).toNat = c.toNat + 32 := by
      rw [Char.ofNat, dif_pos hv]; rfl
    rw [if_neg]; rw [h2]; omega
  · rw [if_neg h, if_neg h]

theorem jsWS_not_word {c : Char} (h : jsWS c = true) : wordChar c = false := by
  simp only [jsWS, Bool.or_eq_true, beq_iff_eq] at h
  rcases h with (((((h | h) | h) | h) | h) | h) | h <;> subst h <;> decide

theorem space_facts :
    jsWS ' ' = true ∧ punctChar ' ' = false ∧ wordChar ' ' = false ∧
    Char.toLower ' ' = ' ' := by decide

-- trim lemmas -----------------------------------------------------------

theorem trimL_trimL (s : List Char) : trimL (trimL s) = trimL s := by
  induction s with
  | nil => rfl
  | cons c cs ih =>
    unfold trimL at *
    by_cases h : jsWS c
    · rw [List.dropWhile_cons_of_pos h]; exact ih
    · rw [List.dropWhile_cons_of_neg h, List.dropWhile_cons_of_neg h]

theorem trimL_shape (s : List Char) :
    trimL s = [] ∨ ∃ c t, trimL s = c :: t ∧ jsWS c = false := by
  induction s with
  | nil => exact Or.inl rfl
  | cons c cs ih =>
    unfold trimL at *
    by_cases h : jsWS c
    · rw [List.dropWhile_cons_of_pos h]; exact ih
    · right
      exact ⟨c, cs, List.dropWhile_cons_of_neg h, by simpa using h⟩

theorem trimR_shape (c : Char) (cs : List Char) :
    trimR (c :: cs) = [] ∨ ∃ t, trimR (c :: cs) = c :: t := by
  unfold trimR
  cases h : trimR cs with
  | nil =>
    by_cases hw : jsWS c
    · simp [hw]
    · simp [hw]
  | cons a t => exact Or.inr ⟨a :: t, rfl⟩

theorem trimR_cons (c : Char) (cs : List Char) :
    trimR (c :: cs) =
      match trimR cs with
      | [] => if jsWS c then [] else [c]
      | r => c :: r := rfl

theorem trimR_cons_nil {cs : List Char} (c : Char) (h : trimR cs = []) :
    trimR (c :: cs) = if jsWS c then [] else [c] := by
  rw [trimR_cons, h]

theorem trimR_cons_ne {cs : List Char} (c a : Char) (t : List Char)
    (h : trimR cs = a :: t) : trimR (c :: cs) = c :: a :: t := by
  rw [trimR_cons, h]

theorem trimR_trimR (s : List Char) : trimR (trimR s) = trimR s := by
  induction s with
  | nil => rfl
  | cons c cs ih =>
    cases h : trimR cs with
    | nil =>
      rw [trimR_cons_nil c h]
      by_cases hw : jsWS c
      · rw [if_pos hw]; rfl
      · rw [if_neg hw, trimR_cons_nil c (show trimR [] = [] from rfl), if_neg hw]
    | cons a t =>
      rw [trimR_cons_ne c a t h]
      have h2 : trimR (a :: t) = a :: t := by rw [← h, ih, h]
      rw [trimR_cons_ne c a t h2]

theorem trim_trim (s : List Char) : trimWS (trimWS s) = trimWS s := by
  unfold trimWS
  rcases trimL_shape s with h | ⟨c, t, h, hc⟩
  · rw [h]
    rfl
  · rw [h]
    rcases trimR_shape c t with h2 | ⟨t2, h2⟩
    · rw [h2]
      rfl
    · rw [h2]
      have hL : trimL (c :: t2) = c :: t2 := by
        unfold trimL
        exact List.dropWhile_cons_of_neg (by simp [hc])
      rw [hL, ← h2, trimR_trimR]

-- whitespace-collapsing lemmas ------------------------------------------

/-- No two adjacent whitespace characters. -/
def noAdjWS : List Char → Bool
  | c :: d :: cs => (!(jsWS c && jsWS d)) && noAdjWS (d :: cs)
  | _ => true

theorem collapseWS_ws_head {c : Char} (cs : List Char) (h : jsWS c = true) :
    ∃ t, collapseWS (c :: cs) = ' ' :: t := by
  induction cs generalizing c with
  | nil => exact ⟨[], by simp [collapseWS, h]⟩
  | cons d cs ih =>
    by_cases hd : jsWS d
    · obtain ⟨t, ht⟩ := ih hd
      exact ⟨t, by simp [collapseWS, h, hd, ht]⟩
    · exact ⟨collapseWS (d :: cs), by simp [collapseWS, h, hd]⟩

theorem collapseWS_nws_head {c : Char} (cs : List Char) (h : jsWS c = false) :
    ∃ t, collapseWS (c :: cs) = c :: t := by
  cases cs with
  | nil => exact ⟨[], by simp [collapseWS, h]⟩
  | cons d cs => exact ⟨collapseWS (d :: cs), by simp [collapseWS, h]⟩

theorem noAdjWS_collapseWS (s : List Char) : noAdjWS (collapseWS s) = true := by
  induction s with
  | nil => rfl
  | cons c cs ih =>
    cases cs with
    | nil =>
      by_cases h : jsWS c <;> simp [collapseWS, h, noAdjWS]
    | cons d cs2 =>
      by_cases hc : jsWS c
      · by_cases hd : jsWS d
        · simpa [collapseWS, hc, hd] using ih
        · obtain ⟨t, ht⟩ := collapseWS_nws_head cs2 (by simpa using hd)
          have : collapseWS (c :: d :: cs2) = ' ' :: d :: t := by
            simp [collapseWS, hc, hd, ht]
          rw [this]
          have ihr : noAdjWS (d :: t) = true := by rw [← ht]; exact ih
          simp [noAdjWS, hd, ihr]
      · by_cases hd : jsWS d
        · obtain ⟨t, ht⟩ := collapseWS_ws_head cs2 (by simpa using hd)
          have : collapseWS (c :: d :: cs2) = c :: ' ' :: t := by
            simp [collapseWS, hc, ht]
          rw [this]
          have ihr : noAdjWS (' ' :: t) = true := by rw [← ht]; exact ih
          simp [noAdjWS, hc, ihr]
        · obtain ⟨t, ht⟩ := collapseWS_nws_head cs2 (by simpa using hd)
          have : collapseWS (c :: d :: cs2) = c :: d :: t := by
            simp [collapseWS, hc, ht]
          rw [this]
          have ihr : noAdjWS (d :: t) = true := by rw [← ht]; exact ih
          simp [noAdjWS, hc, ihr]

theorem mem_collapseWS {c : Char} {s : List Char} (h : c ∈ collapseWS s) :
    (c ∈ s ∧ jsWS c = false) ∨ c = ' ' := by
  induction s with
  | nil => simp [collapseWS] at h
  | cons a cs ih =>
    cases cs with
    | nil =>
      by_cases ha : jsWS a
      · simp [collapseWS, ha] at h
        exact Or.inr h
      · simp [collapseWS, ha] at h
        subst h
        exact Or.inl ⟨List.mem_singleton.mpr rfl, by simpa using ha⟩
    | cons d cs2 =>
      by_cases ha : jsWS a
      · by_cases hd : jsWS d
        · rw [show collapseWS (a :: d :: cs2) = collapseWS (d :: cs2) by
            simp [collapseWS, ha, hd]] at h
          rcases ih h with ⟨hm, hw⟩ | he
          · exact Or.inl ⟨List.mem_cons_of_mem a hm, hw⟩
          · exact Or.inr he
        · rw [show collapseWS (a :: d :: cs2) = ' ' :: collapseWS (d :: cs2) by
            simp [collapseWS, ha, hd]] at h
          rcases List.mem_cons.mp h with he | h2
          · exact Or.inr he
          · rcases ih h2 with ⟨hm, hw⟩ | he
            · exact Or.inl ⟨List.mem_cons_of_mem a hm, hw⟩
            · exact Or.inr he
      · rw [show collapseWS (a :: d :: cs2) = a :: collapseWS (d :: cs2) by
          simp [collapseWS, ha]] at h
        rcases List.mem_cons.mp h with he | h2
        · subst he
          exact Or.inl ⟨List.mem_cons_self _ _, by simpa using ha⟩
        · rcases ih h2 with ⟨hm, hw⟩ | he
          · exact Or.inl ⟨List.mem_cons_of_mem a hm, hw⟩
          · exact Or.inr he

theorem collapseWS_fix {s : List Char}
    (hs : ∀ c ∈ s, jsWS c = true → c = ' ') (hn : noAdjWS s = true) :
    collapseWS s = s := by
  induction s with
  | nil => rfl
  | cons a cs ih =>
    cases cs with
    | nil =>
      by_cases ha : jsWS a
      · have := hs a (List.mem_singleton.mpr rfl) ha
        subst this
        simp [collapseWS]
      · simp [collapseWS, ha]
    | cons d cs2 =>
      have hn2 : noAdjWS (d :: cs2) = true := by
        simp [noAdjWS] at hn
        exact hn.2
      have hs2 : ∀ c ∈ d :: cs2, jsWS c = true → c = ' ' := fun c hc =>
        hs c (List.mem_cons_of_mem a hc)
      by_cases ha : jsWS a
      · have hd : jsWS d = false := by
          simp [noAdjWS] at hn
          rcases hn.1 with h | h
          · exact absurd h (by simpa using ha)
          · exact h
        have haeq := hs a (List.mem_cons_self _ _) ha
        subst haeq
        rw [show collapseWS (' ' :: d :: cs2) = ' ' :: collapseWS (d :: cs2) by
          simp [collapseWS, ha, hd]]
        rw [ih hs2 hn2]
      · rw [show collapseWS (a :: d :: cs2) = a :: collapseWS (d :: cs2) by
          simp [collapseWS, ha]]
        rw [ih hs2 hn2]

theorem noAdjWS_tail {c : Char} {cs : List Char}
    (h : noAdjWS (c :: cs) = true) : noAdjWS cs = true := by
  cases cs with
  | nil => rfl
  | cons d cs2 =>
    simp only [noAdjWS, Bool.and_eq_true] at h
    exact h.2

theorem noAdjWS_trimL {s : List Char} (h : noAdjWS s = true) :
    noAdjWS (trimL s) = true := by
  induction s with
  | nil => exact h
  | cons c cs ih =>
    unfold trimL at *
    by_cases hc : jsWS c
    · rw [List.dropWhile_cons_of_pos hc]
      exact ih (noAdjWS_tail h)
    · rw [List.dropWhile_cons_of_neg hc]
      exact h

theorem noAdjWS_trimR {s : List Char} (h : noAdjWS s = true) :
    noAdjWS (trimR s) = true := by
  induction s with
  | nil => exact h
  | cons c cs ih =>
    cases hr : trimR cs with
    | nil =>
      rw [trimR_cons_nil c hr]
      by_cases hc : jsWS c <;> simp [hc, noAdjWS]
    | cons a t =>
      rw [trimR_cons_ne c a t hr]
      have htail : noAdjWS (a :: t) = true := by
        rw [← hr]; exact ih (noAdjWS_tail h)
      cases cs with
      | nil => simp [trimR] at hr
      | cons d cs2 =>
        have hhead : a = d := by
          rcases trimR_shape d cs2 with h2 | ⟨t2, h2⟩
          · rw [h2] at hr; exact absurd hr (by simp)
          · rw [h2] at hr
            exact (List.cons.injEq _ _ _ _ ▸ hr).1.symm ▸ rfl
        subst hhead
        simp only [noAdjWS, Bool.and_eq_true] at h ⊢
        exact ⟨h.1, htail⟩

-- stop-word-removal lemmas ----------------------------------------------

/-- Checker for the absence of stop-word segments, following the same
scanning scheme as removeStopsAux. -/
def rsChk : List Char → List Char → Bool
  | w, [] => !decide (w ∈ stopWords)
  | w, c :: cs =>
    if wordChar c then rsChk (w ++ [c]) cs
    else !decide (w ∈ stopWords) && rsChk [] cs

theorem nil_not_stop : (([] : List Char) ∈ stopWords) = False := by
  simp only [eq_iff_iff, iff_false]
  decide

theorem rsChk_all_word {v : List Char} (u : List Char)
    (hv : ∀ c ∈ v, wordChar c = true) :
    rsChk u v = !decide ((u ++ v) ∈ stopWords) := by
  induction v generalizing u with
  | nil => simp [rsChk]
  | cons c cs ih =>
    have hc : wordChar c = true := hv c (List.mem_cons_self _ _)
    have hcs : ∀ x ∈ cs, wordChar x = true := fun x hx =>
      hv x (List.mem_cons_of_mem c hx)
    simp only [rsChk, hc, if_true]
    rw [ih (u ++ [c]) hcs]
    simp

theorem rsChk_append_word {w : List Char} (u rest : List Char)
    (hw : ∀ c ∈ w, wordChar c = true) :
    rsChk u (w ++ rest) = rsChk (u ++ w) rest := by
  induction w generalizing u with
  | nil => simp
  | cons c cs ih =>
    have hc : wordChar c = true := hw c (List.mem_cons_self _ _)
    have hcs : ∀ x ∈ cs, wordChar x = true := fun x hx =>
      hw x (List.mem_cons_of_mem c hx)
    rw [List.cons_append]
    simp only [rsChk, hc, if_true]
    rw [show (cs ++ rest : List Char) = cs ++ rest from rfl, ih (u ++ [c]) hcs]
    simp

theorem rsChk_cons_word {c : Char} (w cs : List Char)
    (hc : wordChar c = true) :
    rsChk w (c :: cs) = rsChk (w ++ [c]) cs := by
  simp [rsChk, hc]

theorem rsChk_cons_nonword {c : Char} (w cs : List Char)
    (hc : wordChar c = false) :
    rsChk w (c :: cs) = (!decide (w ∈ stopWords) && rsChk [] cs) := by
  simp [rsChk, hc]

theorem rsChk_removeStopsAux (s : List Char) :
    ∀ w, (∀ c ∈ w, wordChar c = true) →
      rsChk [] (removeStopsAux w s) = true := by
  induction s with
  | nil =>
    intro w hw
    unfold removeStopsAux emitWord
    by_cases h : w ∈ stopWords
    · rw [if_pos h]
      simp [rsChk, nil_not_stop]
    · rw [if_neg h]
      rw [rsChk_all_word [] hw]
      simpa using h
  | cons c cs ih =>
    intro w hw
    unfold removeStopsAux
    have hnil : ∀ x ∈ ([] : List Char), wordChar x = true := by
      intro x hx; cases hx
    by_cases hc : wordChar c
    · rw [if_pos hc]
      refine ih (w ++ [c]) ?_
      intro x hx
      rcases List.mem_append.mp hx with h | h
      · exact hw x h
      · rw [List.mem_singleton.mp h]; exact hc
    · have hcf : wordChar c = false := by simpa using hc
      rw [if_neg hc]
      unfold emitWord
      by_cases h : w ∈ stopWords
      · rw [if_pos h]
        simp only [List.nil_append]
        rw [rsChk_cons_nonword [] _ hcf, ih [] hnil]
        simp [nil_not_stop]
      · rw [if_neg h]
        rw [rsChk_append_word [] (c :: removeStopsAux [] cs) hw]
        simp only [List.nil_append]
        rw [rsChk_cons_nonword w _ hcf, ih [] hnil]
        simpa using h

theorem rsChk_fix (s : List Char) :
    ∀ w, rsChk w s = true → removeStopsAux w s = w ++ s := by
  induction s with
  | nil =>
    intro w h
    unfold removeStopsAux emitWord
    simp only [rsChk] at h
    rw [if_neg (by simpa using h)]
    simp
  | cons c cs ih =>
    intro w h
    unfold removeStopsAux
    by_cases hc : wordChar c
    · rw [if_pos hc]
      simp only [rsChk, hc, if_true] at h
      rw [ih (w ++ [c]) h]
      simp
    · have hcf : wordChar c = false := by simpa using hc
      rw [rsChk_cons_nonword w cs hcf, Bool.and_eq_true] at h
      rw [if_neg hc]
      unfold emitWord
      rw [if_neg (by simpa using h.1)]
      rw [ih [] h.2]
      simp

theorem removeStops_fix {s : List Char} (h : rsChk [] s = true) :
    removeStops s = s := by
  unfold removeStops
  rw [rsChk_fix s [] h]
  simp

theorem rsChk_trimL {s : List Char} (h : rsChk [] s = true) :
    rsChk [] (trimL s) = true := by
  induction s with
  | nil => exact h
  | cons c cs ih =>
    unfold trimL at *
    by_cases hc : jsWS c
    · rw [List.dropWhile_cons_of_pos hc]
      have hcf : wordChar c = false := jsWS_not_word hc
      rw [rsChk_cons_nonword [] cs hcf, Bool.and_eq_true] at h
      exact ih h.2
    · rw [List.dropWhile_cons_of_neg hc]
      exact h

theorem rsChk_trimR (s : List Char) :
    ∀ u, rsChk u s = true → rsChk u (trimR s) = true := by
  induction s with
  | nil => exact fun u h => h
  | cons c cs ih =>
    intro u h
    by_cases hc : wordChar c
    · rw [rsChk_cons_word u cs hc] at h
      have h2 := ih (u ++ [c]) h
      cases hr : trimR cs with
      | nil =>
        have hcw : jsWS c = false := by
          by_contra hx
          have h3 := jsWS_not_word (by simpa using hx)
          rw [hc] at h3
          cases h3
        rw [trimR_cons_nil c hr, hcw]
        simp only [Bool.false_eq_true, if_false]
        rw [rsChk_cons_word u [] hc]
        rw [hr] at h2
        exact h2
      | cons a t =>
        rw [trimR_cons_ne c a t hr]
        rw [rsChk_cons_word u (a :: t) hc]
        rw [hr] at h2
        exact h2
    · have hcf : wordChar c = false := by simpa using hc
      rw [rsChk_cons_nonword u cs hcf, Bool.and_eq_true] at h
      cases hr : trimR cs with
      | nil =>
        rw [trimR_cons_nil c hr]
        by_cases hcw : jsWS c
        · rw [hcw]
          simp only [if_true]
          simp only [rsChk]
          exact h.1
        · rw [show jsWS c = false by simpa using hcw]
          simp only [Bool.false_eq_true, if_false]
          rw [rsChk_cons_nonword u [] hcf]
          simp only [rsChk, Bool.and_eq_true]
          exact ⟨h.1, by simp [nil_not_stop]⟩
      | cons a t =>
        rw [trimR_cons_ne c a t hr]
        rw [rsChk_cons_nonword u (a :: t) hcf, Bool.and_eq_true]
        refine ⟨h.1, ?_⟩
        rw [← hr]
        exact ih [] h.2

theorem rsChk_collapseWS (s : List Char) :
    ∀ u, rsChk u s = true → rsChk u (collapseWS s) = true := by
  induction s with
  | nil => exact fun u h => h
  | cons c cs ih =>
    intro u h
    cases cs with
    | nil =>
      by_cases hc : jsWS c
      · have hcf : wordChar c = false := jsWS_not_word hc
        rw [show collapseWS [c] = [' '] by simp [collapseWS, hc]]
        rw [rsChk_cons_nonword u [] hcf, Bool.and_eq_true] at h
        rw [rsChk_cons_nonword u [] (by decide)]
        simpa using h
      · rw [show collapseWS [c] = [c] by simp [collapseWS, hc]]
        exact h
    | cons d cs2 =>
      by_cases hc : jsWS c
      · have hcf : wordChar c = false := jsWS_not_word hc
        rw [rsChk_cons_nonword u (d :: cs2) hcf, Bool.and_eq_true] at h
        by_cases hd : jsWS d
        · rw [show collapseWS (c :: d :: cs2) = collapseWS (d :: cs2) by
            simp [collapseWS, hc, hd]]
          obtain ⟨t, ht⟩ := collapseWS_ws_head cs2 (by simpa using hd)
          have h2 := ih [] h.2
          rw [ht] at h2 ⊢
          rw [rsChk_cons_nonword [] t (by decide), Bool.and_eq_true] at h2
          rw [rsChk_cons_nonword u t (by decide), Bool.and_eq_true]
          exact ⟨h.1, h2.2⟩
        · rw [show collapseWS (c :: d :: cs2) = ' ' :: collapseWS (d :: cs2) by
            simp [collapseWS, hc, hd]]
          rw [rsChk_cons_nonword u _ (by decide), Bool.and_eq_true]
          exact ⟨h.1, ih [] h.2⟩
      · rw [show collapseWS (c :: d :: cs2) = c :: collapseWS (d :: cs2) by
          simp [collapseWS, hc]]
        by_cases hw : wordChar c
        · rw [rsChk_cons_word u (d :: cs2) hw] at h
          rw [rsChk_cons_word u _ hw]
          exact ih (u ++ [c]) h
        · have hwf : wordChar c = false := by simpa using hw
          rw [rsChk_cons_nonword u (d :: cs2) hwf, Bool.and_eq_true] at h
          rw [rsChk_cons_nonword u _ hwf, Bool.and_eq_true]
          exact ⟨h.1, ih [] h.2⟩

-- provenance of characters through the pipeline --------------------------

theorem mem_trimL {c : Char} {s : List Char} (h : c ∈ trimL s) : c ∈ s := by
  induction s with
  | nil => exact h
  | cons a cs ih =>
    unfold trimL at h
    by_cases ha : jsWS a
    · rw [List.dropWhile_cons_of_pos ha] at h
      exact List.mem_cons_of_mem a (ih h)
    · rw [List.dropWhile_cons_of_neg ha] at h
      exact h

theorem mem_trimR {c : Char} {s : List Char} (h : c ∈ trimR s) : c ∈ s := by
  induction s with
  | nil => exact h
  | cons a cs ih =>
    cases hr : trimR cs with
    | nil =>
      rw [trimR_cons_nil a hr] at h
      by_cases ha : jsWS a
      · rw [if_pos ha] at h; cases h
      · rw [if_neg ha] at h
        rw [List.mem_singleton.mp h]
        exact List.mem_cons_self _ _
    | cons b t =>
      rw [trimR_cons_ne a b t hr] at h
      rcases List.mem_cons.mp h with he | h2
      · rw [he]; exact List.mem_cons_self _ _
      · rw [← hr] at h2
        exact List.mem_cons_of_mem a (ih h2)

theorem mem_emitWord {c : Char} {w : List Char} (h : c ∈ emitWord w) :
    c ∈ w := by
  unfold emitWord at h
  by_cases hw : w ∈ stopWords
  · rw [if_pos hw] at h; cases h
  · rw [if_neg hw] at h; exact h

theorem mem_removeStopsAux {c : Char} (s : List Char) :
    ∀ w, c ∈ removeStopsAux w s → c ∈ w ∨ c ∈ s := by
  induction s with
  | nil =>
    intro w h
    unfold removeStopsAux at h
    exact Or.inl (mem_emitWord h)
  | cons a cs ih =>
    intro w h
    unfold removeStopsAux at h
    by_cases ha : wordChar a
    · rw [if_pos ha] at h
      rcases ih (w ++ [a]) h with h2 | h2
      · rcases List.mem_append.mp h2 with h3 | h3
        · exact Or.inl h3
        · exact Or.inr (by rw [List.mem_singleton.mp h3]; exact List.mem_cons_self _ _)
      · exact Or.inr (List.mem_cons_of_mem a h2)
    · rw [if_neg ha] at h
      rcases List.mem_append.mp h with h2 | h2
      · exact Or.inl (mem_emitWord h2)
      · rcases List.mem_cons.mp h2 with he | h3
        · exact Or.inr (by rw [he]; exact List.mem_cons_self _ _)
        · rcases ih [] h3 with h4 | h4
          · cases h4
          · exact Or.inr (List.mem_cons_of_mem a h4)

theorem map_toLower_fix {s : List Char} (h : ∀ c ∈ s, c.toLower = c) :
    s.map Char.toLower = s := by
  induction s with
  | nil => rfl
  | cons a cs ih =>
    simp only [List.map_cons]
    rw [h a (List.mem_cons_self _ _),
      ih (fun c hc => h c (List.mem_cons_of_mem a hc))]

/-- Every character of a normalized query is lowercase-fixed,
non-punctuation, and the only whitespace it may be is a single space. -/
theorem normList_chars {x : List Char} :
    ∀ c ∈ normList x,
      c.toLower = c ∧ punctChar c = false ∧ (jsWS c = true → c = ' ') := by
  intro c hc
  unfold normList trimWS at hc
  have h1 := mem_trimL (mem_trimR hc)
  rcases mem_collapseWS h1 with ⟨h2, hws⟩ | he
  · rcases mem_removeStopsAux _ [] h2 with h3 | h3
    · cases h3
    · rcases mem_collapseWS h3 with ⟨h4, _⟩ | he2
      · have h5 := List.mem_filter.mp h4
        have hpunct : punctChar c = false := by
          have := h5.2
          simpa using this
        have h6 := mem_trimL (mem_trimR h5.1)
        obtain ⟨a, _, ha⟩ := List.mem_map.mp h6
        refine ⟨?_, hpunct, fun hw => absurd hw (by simp [hws])⟩
        rw [← ha]
        exact toLower_toLower a
      · rw [he2]
        exact ⟨by decide, by decide, fun _ => rfl⟩
  · rw [he]
    exact ⟨by decide, by decide, fun _ => rfl⟩

theorem normList_noAdj (x : List Char) : noAdjWS (normList x) = true := by
  unfold normList trimWS
  exact noAdjWS_trimR (noAdjWS_trimL (noAdjWS_collapseWS _))

theorem normList_rsChk (x : List Char) : rsChk [] (normList x) = true := by
  unfold normList trimWS
  refine rsChk_trimR _ [] (rsChk_trimL (rsChk_collapseWS _ [] ?_))
  exact rsChk_removeStopsAux _ [] (by intro c hc; cases hc)

/-- Claim C10: normalizeQuery is idempotent (on the character-list level). -/
theorem normList_idem (x : List Char) : normList (normList x) = normList x := by
  have hch := @normList_chars x
  have hlower : (normList x).map Char.toLower = normList x :=
    map_toLower_fix (fun c hc => (hch c hc).1)
  have htrim : trimWS (normList x) = normList x := by
    unfold normList
    rw [show ∀ z : List Char, trimWS (collapseWS z) = trimWS (collapseWS z) from fun z => rfl]
    exact trim_trim _
  have hfilter : (normList x).filter (fun c => !punctChar c) = normList x := by
    rw [List.filter_eq_self]
    intro c hc
    simp [(hch c hc).2.1]
  have hcollapse : collapseWS (normList x) = normList x :=
    collapseWS_fix (fun c hc => (hch c hc).2.2) (normList_noAdj x)
  have hstops : removeStops (normList x) = normList x :=
    removeStops_fix (normList_rsChk x)
  conv_lhs => rw [normList]
  rw [hlower, htrim, hfilter, hcollapse, hstops, hcollapse, htrim]

/-- Claim C10: normalizeQuery is idempotent.  corrections.ts lines 15-27. -/
theorem normalizeQuery_idem (s : String) :
    normalizeQuery (normalizeQuery s) = normalizeQuery s := by
  unfold normalizeQuery
  rw [show (String.mk (normList s.data)).data = normList s.data from rfl]
  rw [normList_idem]

/- ======================================================================
   Correction cache (corrections.ts): lookup and store
   ====================================================================== -/

/-- corrections.ts lines 32-34: KV key of a correction id. -/
def correctionCacheKey (questionId : String) : String :=
  "correction:" ++ questionId

/-- The CorrectionEntry record (types.ts / corrections.ts).  Timestamps are
kept abstract as strings; fields not read by the modelled paths
(wrongAnswerSources, tags, originalScore) are omitted. -/
structure CorrectionEntry where
  id : String
  originalQuestion : String
  normalizedQuestion : String
  questionVariants : List String
  wrongAnswer : String
  correctAnswer : String
  correctAnswerSource : Option String
  correctedBy : String
  correctedAt : String
  timesReused : Nat
deriving DecidableEq, Repr

/-- Result type of checkCorrectionCache (CorrectionCacheHit in types.ts). -/
structure CorrectionCacheHit where
  found : Bool
  confidence : ℚ
  correction : Option CorrectionEntry
  matchedVariant : Option String
deriving DecidableEq, Repr

/-- The top vector-index match of the semantic tier, with the score and the
kvKey / questionPreview stored in its metadata (metadata fields optional,
as in the source). -/
structure SemMatch where
  score : ℚ
  kvKey : Option String
  questionPreview : Option String
deriving DecidableEq, Repr

/-- The environment of the correction cache, with the external services as
explicit parameters: `configured` is the presence of both the
CORRECTION_QA_INDEX and CORRECTION_QA_KV bindings; `kv` is KVGet composed
with JSON parsing (none = missing or unparsable); `hashFn` abstracts the
SHA-256-based hashString; `semanticTop` is the best match the semantic
vector query returns for the current query (none = no matches or a query
error, which the source catches); `threshold` is CORRECTION_MATCH_THRESHOLD. -/
structure CacheEnv where
  configured : Bool
  kv : String → Option CorrectionEntry
  hashFn : String → String
  semanticTop : Option SemMatch
  threshold : ℚ

/-- Usage-stat bump performed on every cache hit (corrections.ts lines
82-84 and 159-161): timesReused is incremented in place. -/
def bumpUsage (c : CorrectionEntry) : CorrectionEntry :=
  { c with timesReused := c.timesReused + 1 }

/-- corrections.ts lines 56-189: checkCorrectionCache.  Tier 1 is the exact
match of the hashed normalized query against the KV store, returned with
confidence 1.0; only on a tier-1 miss is the semantic tier consulted, with
the inclusive threshold test, the kvKey indirection, and the
missing-KV-record fallback to a miss. -/
def checkCorrectionCache (env : CacheEnv) (query : String) :
    CorrectionCacheHit :=
  if !env.configured then
    { found := false, confidence := 0, correction := none,
      matchedVariant := none }
  else
    let normalized := normalizeQuery query
    let exactId := env.hashFn normalized
    let exactKey := correctionCacheKey exactId
    match env.kv exactKey with
    | some correction =>
      { found := true, confidence := 1,
        correction := some (bumpUsage correction),
        matchedVariant := some correction.originalQuestion }
    | none =>
      match env.semanticTop with
      | none =>
        { found := false, confidence := 0, correction := none,
          matchedVariant := none }
      | some m =>
        if m.score ≥ env.threshold then
          match m.kvKey with
          | none =>
            { found := false, confidence := m.score, correction := none,
              matchedVariant := none }
          | some kvKey =>
            match env.kv kvKey with
            | some correction =>
              { found := true, confidence := m.score,
                correction := some (bumpUsage correction),
                matchedVariant := m.questionPreview }
            | none =>
              { found := false, confidence := 0, correction := none,
                matchedVariant := none }
        else
          { found := false, confidence := 0, correction := none,
            matchedVariant := none }

/-- index.ts lines 730-762 (handleChat), after request validation: the
correction cache is consulted first; on found-with-correction the
correctAnswer is returned and the whole RAG pipeline (retrieval, synthesis,
validation, driven by AgentOrchestrator.processQuery) is never invoked.
The pipeline is a parameter; the Bool of the result records whether it ran. -/
def handleChatCore (env : CacheEnv) (pipeline : String → String)
    (query : String) : String × Bool :=
  let cacheHit := checkCorrectionCache env query
  match cacheHit.found, cacheHit.correction with
  | true, some c => (c.correctAnswer, false)
  | _, _ => (pipeline query, true)

/-- A vector-index point of the correction index: id, the embedded values
(kept abstract), and the metadata written by storeCorrectionInCache. -/
structure VecPoint where
  id : String
  kvKey : String
  questionPreview : String
deriving DecidableEq, Repr

/-- Joint state of the correction cache: the KV store and the correction
vector index. -/
structure CacheState where
  kv : String → Option CorrectionEntry
  vec : List VecPoint

/-- Batch upsert into the vector index: points with a matching id are
replaced, the new points appended. -/
def vecUpsert (vec : List VecPoint) (pts : List VecPoint) : List VecPoint :=
  vec.filter (fun p => !(pts.map VecPoint.id).contains p.id) ++ pts

/-- The feedback payload of storeCorrectionInCache. -/
structure FeedbackPayload where
  originalQuery : String
  wrongAnswer : String
  correctAnswer : String
  questionVariants : List String
  correctedBy : String
  correctAnswerSource : Option String
deriving DecidableEq, Repr

/-- Result of storeCorrectionInCache. -/
structure StoreResult where
  success : Bool
  id : Option String
deriving DecidableEq, Repr

/-- JS Set-union dedup used when merging question variants. -/
def addUniq (l : List String) (x : String) : List String :=
  if x ∈ l then l else l ++ [x]

def dedupUnion (a b : List String) : List String :=
  (a ++ b).foldl addUniq []

/-- corrections.ts lines 298-301: the questions embedded for the vector
index, the original query plus every variant, blank strings removed. -/
def storeQuestions (feedback : FeedbackPayload) : List String :=
  (feedback.originalQuery :: feedback.questionVariants).filter
    (fun q => !(trimWS q.data).isEmpty)

/-- corrections.ts lines 317-327: the vector-index points written for a
correction: the first question keeps the correction id, variants get the
suffixed ids, and every point carries the same kvKey in its metadata. -/
def storeVecEntries (feedback : FeedbackPayload) (id kvKey : String) :
    List VecPoint :=
  (List.range (storeQuestions feedback).length).map
    (fun idx =>
      { id := if idx = 0 then id else id ++ "_v" ++ toString idx
        kvKey := kvKey
        questionPreview :=
          String.mk ((((storeQuestions feedback).get? idx).getD "").data.take 100)
        : VecPoint })

/-- corrections.ts lines 201-345: storeCorrectionInCache.  The external
effects that can fail are the KV put and the vector upsert, modelled by the
two Bool parameters (false = the call throws); the embedding calls never
throw (embedTextSingle returns a vector on every path).  The KV write
happens before the vector upsert and is not rolled back on a later
failure.  `now` abstracts the current timestamp. -/
def storeCorrectionInCache (st : CacheState) (configured : Bool)
    (feedback : FeedbackPayload) (hashFn : String → String) (now : String)
    (kvPutOk upsertOk : Bool) : StoreResult × CacheState :=
  if !configured then ({ success := false, id := none }, st)
  else
    let normalized := normalizeQuery feedback.originalQuery
    let id := hashFn normalized
    let kvKey := correctionCacheKey id
    let correction : CorrectionEntry :=
      match st.kv kvKey with
      | some existing =>
        { existing with
          correctAnswer := feedback.correctAnswer
          wrongAnswer := feedback.wrongAnswer
          questionVariants :=
            dedupUnion existing.questionVariants feedback.questionVariants
          correctedBy := feedback.correctedBy
          correctedAt := now
          correctAnswerSource :=
            match feedback.correctAnswerSource with
            | some src => some src
            | none => existing.correctAnswerSource }
      | none =>
        { id := id
          originalQuestion := feedback.originalQuery
          normalizedQuestion := normalized
          questionVariants := feedback.questionVariants
          wrongAnswer := feedback.wrongAnswer
          correctAnswer := feedback.correctAnswer
          correctAnswerSource := feedback.correctAnswerSource
          correctedBy := feedback.correctedBy
          correctedAt := now
          timesReused := 0 }
    if !kvPutOk then ({ success := false, id := none }, st)
    else
      let st1 : CacheState :=
        { st with kv := fun k => if k = kvKey then some correction else st.kv k }
      if !upsertOk then ({ success := false, id := none }, st1)
      else
        (({ success := true, id := some id } : StoreResult),
          { st1 with
            vec := vecUpsert st1.vec (storeVecEntries feedback id kvKey) })

/- ======================================================================
   Claim C1: exact-match correction short-circuits the pipeline
   ====================================================================== -/

/-- Claim C1.  For every query whose normalized form hashes to a key with a
stored correction, checkCorrectionCache returns found = true with
confidence exactly 1.0 via the exact-match tier: the result is independent
of the semantic tier (any semanticTop / threshold yields the same hit), and
handleChat then returns that correction's correctAnswer without invoking
the retrieval-synthesis-validation pipeline (the Bool false records that
the orchestrator never ran). -/
theorem correction_exact_match_short_circuit
    (env : CacheEnv) (query : String) (c : CorrectionEntry)
    (hconf : env.configured = true)
    (hkv : env.kv (correctionCacheKey (env.hashFn (normalizeQuery query))) =
      some c) :
    checkCorrectionCache env query =
      { found := true, confidence := 1, correction := some (bumpUsage c),
        matchedVariant := some c.originalQuestion } ∧
    (∀ sem thr,
      checkCorrectionCache
          { env with semanticTop := sem, threshold := thr } query =
        checkCorrectionCache env query) ∧
    (∀ pipeline, handleChatCore env pipeline query = (c.correctAnswer, false)) := by
  have hhit : checkCorrectionCache env query =
      { found := true, confidence := 1, correction := some (bumpUsage c),
        matchedVariant := some c.originalQuestion } := by
    unfold checkCorrectionCache
    rw [hconf]
    simp only [Bool.not_true, Bool.false_eq_true, if_false]
    rw [hkv]
  refine ⟨hhit, ?_, ?_⟩
  · intro sem thr
    rw [hhit]
    unfold checkCorrectionCache
    rw [hconf]
    simp only [Bool.not_true, Bool.false_eq_true, if_false]
    rw [show ({ env with semanticTop := sem, threshold := thr } : CacheEnv).kv = env.kv from rfl,
      show ({ env with semanticTop := sem, threshold := thr } : CacheEnv).hashFn = env.hashFn from rfl]
    rw [hkv]
  · intro pipeline
    unfold handleChatCore
    rw [hhit]
    rfl


/-- The concrete correction entry of the C1 witness. -/
def c1Correction : CorrectionEntry :=
  { id := "h0", originalQuestion := "How does BLE pairing work?",
    normalizedQuestion := "ble pairing work",
    questionVariants := [], wrongAnswer := "old wrong answer",
    correctAnswer := "X", correctAnswerSource := none,
    correctedBy := "tester", correctedAt := "t0", timesReused := 3 }

/-- The concrete cache environment of the C1 witness: one stored
correction, and a semantic tier primed with a different perfect-score
match that must lose to the exact tier. -/
def c1Env : CacheEnv :=
  { configured := true,
    kv := fun k => if k = "correction:h0" then some c1Correction else none,
    hashFn := fun _ => "h0",
    semanticTop := some
      { score := 1, kvKey := some "correction:other",
        questionPreview := some "other" },
    threshold := 9 / 10 }

/-- Witness for C1 at the concrete environment: the cached correctAnswer is
returned with confidence 1.0 and the pipeline never runs. -/
theorem correction_exact_match_short_circuit_witness :
    checkCorrectionCache c1Env "How does BLE pairing work?" =
      { found := true, confidence := 1,
        correction := some (bumpUsage c1Correction),
        matchedVariant := some "How does BLE pairing work?" } ∧
    handleChatCore c1Env (fun _ => "rag answer") "How does BLE pairing work?" =
      ("X", false) := by
  have h := correction_exact_match_short_circuit c1Env
    "How does BLE pairing work?" c1Correction rfl (by decide)
  exact ⟨h.1, h.2.2 (fun _ => "rag answer")⟩

/- ======================================================================
   Claim C8: atomicity of storeCorrectionInCache
   ====================================================================== -/

/-- The feedback payload of the C8 counterexample and witness. -/
def c8Feedback : FeedbackPayload :=
  { originalQuery := "How does BLE pairing work?",
    wrongAnswer := "W", correctAnswer := "X", questionVariants := ["v1"],
    correctedBy := "u", correctAnswerSource := none }

/-- The empty starting cache state used in the C8 theorems. -/
def c8St0 : CacheState := { kv := fun _ => none, vec := [] }

/-- Counterexample to claim C8 as stated: when the KV put succeeds but the
vector upsert throws (corrections.ts line 334), storeCorrectionInCache
returns success = false, yet the KV record has already been written -- the
correction-cache state is not unchanged, so the operation is not atomic. -/
theorem storeCorrection_not_atomic :
    (storeCorrectionInCache c8St0 true c8Feedback (fun _ => "h1") "t1"
        true false).1.success = false ∧
    (storeCorrectionInCache c8St0 true c8Feedback (fun _ => "h1") "t1"
        true false).2.kv (correctionCacheKey "h1") ≠ none ∧
    c8St0.kv (correctionCacheKey "h1") = none := by
  refine ⟨rfl, ?_, rfl⟩
  intro h
  simp only [storeCorrectionInCache, correctionCacheKey] at h
  revert h
  decide

/-- Claim C8 amended.  storeCorrectionInCache is not atomic: the KV write
precedes the vector upsert and is not rolled back.  What holds is: on
success = true the returned id is the hash of the normalized question, the
KV record exists, and one vector point per non-blank question (the original
plus each variant, so at least one when the original query is non-blank)
is in the index, all carrying the same kvKey that points at the record; on
success = false the vector index is unchanged, but the KV record may
already have been written (exactly when the KV put succeeded and the
upsert failed). -/
theorem storeCorrection_effects (st : CacheState) (fb : FeedbackPayload)
    (hashFn : String → String) (now : String) (kvPutOk upsertOk : Bool) :
    ((storeCorrectionInCache st true fb hashFn now kvPutOk upsertOk).1.success
        = true →
      (storeCorrectionInCache st true fb hashFn now kvPutOk
          upsertOk).1.id = some (hashFn (normalizeQuery fb.originalQuery)) ∧
      (storeCorrectionInCache st true fb hashFn now kvPutOk
          upsertOk).2.kv (correctionCacheKey
            (hashFn (normalizeQuery fb.originalQuery))) ≠ none ∧
      (∀ p ∈ storeVecEntries fb (hashFn (normalizeQuery fb.originalQuery))
          (correctionCacheKey (hashFn (normalizeQuery fb.originalQuery))),
        p ∈ (storeCorrectionInCache st true fb hashFn now kvPutOk
          upsertOk).2.vec ∧
        p.kvKey = correctionCacheKey (hashFn (normalizeQuery fb.originalQuery))) ∧
      ((trimWS fb.originalQuery.data).isEmpty = false →
        1 ≤ (storeVecEntries fb (hashFn (normalizeQuery fb.originalQuery))
          (correctionCacheKey (hashFn (normalizeQuery fb.originalQuery)))).length)) ∧
    ((storeCorrectionInCache st true fb hashFn now kvPutOk upsertOk).1.success
        = false →
      (storeCorrectionInCache st true fb hashFn now kvPutOk upsertOk).2.vec
        = st.vec) := by
  cases kvPutOk with
  | false =>
    constructor
    · intro h
      simp [storeCorrectionInCache] at h
    · intro _
      simp [storeCorrectionInCache]
  | true =>
    cases upsertOk with
    | false =>
      constructor
      · intro h
        simp [storeCorrectionInCache] at h
      · intro _
        simp [storeCorrectionInCache]
    | true =>
      constructor
      · intro _
        refine ⟨by simp [storeCorrectionInCache], ?_, ?_, ?_⟩
        · simp [storeCorrectionInCache]
        · intro p hp
          constructor
          · simp only [storeCorrectionInCache, Bool.not_true,
              Bool.false_eq_true, if_false]
            simp [vecUpsert]
            exact Or.inr hp
          · unfold storeVecEntries at hp
            obtain ⟨i, _, hi⟩ := List.mem_map.mp hp
            rw [← hi]
        · intro hne
          have hmem : fb.originalQuery ∈ storeQuestions fb := by
            unfold storeQuestions
            rw [List.mem_filter]
            exact ⟨List.mem_cons_self _ _, by simp [hne]⟩
          have hlen : 0 < (storeQuestions fb).length :=
            List.length_pos.mpr (fun he => by rw [he] at hmem; cases hmem)
          simpa [storeVecEntries] using hlen
      · intro h
        simp [storeCorrectionInCache] at h

/-- Witness for the amended C8 at a concrete input: a successful store
leaves the KV record in place and at least one vector entry. -/
theorem storeCorrection_effects_witness :
    (storeCorrectionInCache c8St0 true c8Feedback (fun _ => "h1") "t1"
        true true).2.kv (correctionCacheKey "h1") ≠ none ∧
    1 ≤ (storeVecEntries c8Feedback "h1" (correctionCacheKey "h1")).length := by
  have h := storeCorrection_effects c8St0 c8Feedback
    (fun _ => "h1") "t1" true true
  have h1 := h.1 (by decide)
  exact ⟨h1.2.1, h1.2.2.2 (by decide)⟩

/- ======================================================================
   Embedding (retrieval.ts): embedTextSingle, the zero-vector fallback,
   the variant filter of the retrieval agent (claim C7)
   ====================================================================== -/

/-- A JavaScript number as seen by the embedding validation: either a
finite value (modelled as a rational) or a non-finite one (NaN or an
infinity), which Number.isFinite rejects. -/
inductive JsNum where
  | fin (q : ℚ)
  | nonfinite
deriving DecidableEq, Repr

def JsNum.isFiniteNum : JsNum → Bool
  | .fin _ => true
  | .nonfinite => false

/-- retrieval.ts lines 263-264: the vector validation of embedTextSingle --
a non-empty array whose members are all finite numbers.  Zero entries pass. -/
def validVec (v : List JsNum) : Bool :=
  !v.isEmpty && v.all JsNum.isFiniteNum

/-- The all-zero vector of a given dimension. -/
def zeroVec (n : Nat) : List JsNum := List.replicate n (.fin 0)

/-- retrieval.ts lines 234-309: embedTextSingle, as a function of the
vectors each attempt extracts from the service response (none = the call
threw or no shape matched) and of the REST fallback result.  The first
attempt whose vector passes validVec is returned; otherwise the REST
fallback is used if it validates; otherwise the final fallback *returns*
the 1024-dimensional zero vector -- the function never throws. -/
def embedTextSingle (attempts : List (Option (List JsNum)))
    (rest : Option (List JsNum)) : List JsNum :=
  match attempts with
  | [] =>
    match rest with
    | some v => if validVec v then v else zeroVec 1024
    | none => zeroVec 1024
  | a :: more =>
    match a with
    | some v => if validVec v then v else embedTextSingle more rest
    | none => embedTextSingle more rest

/-- agents/retrievalAgent.ts lines 18-20: the embedded variant vectors are
filtered with (v => Array.isArray(v) && v.length > 0) before the
per-variant vector-index queries. -/
def keptVectors (vecs : List (List JsNum)) : List (List JsNum) :=
  vecs.filter (fun v => !v.isEmpty)

/-- retrieval.ts lines 622-626: the guard of vectorizeQuery -- the query is
executed unless the vector is empty or has a non-finite member. -/
def vectorizeQueryGuard (v : List JsNum) : Bool :=
  !v.isEmpty && v.all JsNum.isFiniteNum

theorem zeroVec_valid (n : Nat) : validVec (zeroVec (n + 1)) = true := by
  unfold validVec zeroVec
  rw [Bool.and_eq_true]
  constructor
  · simp
  · rw [List.all_eq_true]
    intro x hx
    rw [List.eq_of_mem_replicate hx]
    rfl

/-- Counterexample to claim C7 as stated:  when every embedding attempt and
the REST fallback fail, embedTextSingle returns the all-zero 1024-vector
instead of failing; that vector passes the retrieval agent's variant
filter and passes the vectorizeQuery guard, so the all-zero vector IS used
as a valid embedding to query the index -- it is not treated as a failure,
and the variant is not dropped. -/
theorem zero_vector_used_to_query :
    embedTextSingle [none, none, none] none = zeroVec 1024 ∧
    keptVectors [embedTextSingle [none, none, none] none] =
      [zeroVec 1024] ∧
    vectorizeQueryGuard (embedTextSingle [none, none, none] none) = true ∧
    validVec (zeroVec 1024) = true := by
  have hv : validVec (zeroVec 1024) = true := zeroVec_valid 1023
  have hne : (zeroVec 1024).isEmpty = false := by
    have := hv
    unfold validVec at this
    rw [Bool.and_eq_true] at this
    have h1 := this.1
    cases h : (zeroVec 1024).isEmpty
    · rfl
    · rw [h] at h1; cases h1
  have heq : embedTextSingle [none, none, none] none = zeroVec 1024 := rfl
  refine ⟨heq, ?_, ?_, hv⟩
  · rw [heq]
    unfold keptVectors
    rw [List.filter_cons]
    rw [hne]
    rfl
  · rw [heq]
    exact hv

/-- Claim C7 amended.  A variant whose embedding yields an empty vector is
dropped by the filter before the per-variant index query, and non-finite
vector members are rejected by validation; but embedTextSingle never
fails: every vector it returns (including its terminal all-zero fallback)
is non-empty with all-finite members, passes the variant filter, and
passes the vectorizeQuery guard -- in particular an all-zero vector is
accepted as a valid embedding, not treated as a failure. -/
theorem embedTextSingle_never_dropped (attempts : List (Option (List JsNum)))
    (rest : Option (List JsNum)) :
    validVec (embedTextSingle attempts rest) = true ∧
    embedTextSingle attempts rest ∈
      keptVectors [embedTextSingle attempts rest] ∧
    vectorizeQueryGuard (embedTextSingle attempts rest) = true := by
  have hvalid : validVec (embedTextSingle attempts rest) = true := by
    induction attempts with
    | nil =>
      cases rest with
      | none => exact zeroVec_valid 1023
      | some v =>
        show validVec (if validVec v then v else zeroVec 1024) = true
        by_cases hv : validVec v
        · rw [if_pos hv]; exact hv
        · rw [if_neg hv]; exact zeroVec_valid 1023
    | cons a more ih =>
      cases a with
      | none => exact ih
      | some v =>
        show validVec (if validVec v then v
          else embedTextSingle more rest) = true
        by_cases hv : validVec v
        · rw [if_pos hv]; exact hv
        · rw [if_neg hv]; exact ih
  refine ⟨hvalid, ?_, hvalid⟩
  unfold keptVectors
  rw [List.mem_filter]
  refine ⟨List.mem_singleton.mpr rfl, ?_⟩
  unfold validVec at hvalid
  rw [Bool.and_eq_true] at hvalid
  exact hvalid.1

/- ======================================================================
   Orchestrator (agents/orchestrator.ts): iteration bound, early exit,
   per-stage error handling (claims C5, C6)
   ====================================================================== -/

/-- orchestrator.ts line 15 (and index.ts line 719): the effective
iteration bound.  maxIter is a JavaScript number, modelled as an integer:
positive values are capped at 10, anything else falls back to 2. -/
def computeMaxIter (maxIter : Int) : Nat :=
  if 0 < maxIter then (min maxIter 10).toNat else 2

/-- Result of one SynthesisAgent.execute call. -/
structure SynthRes where
  answer : String
  synthesisNotes : List String
deriving DecidableEq, Repr

/-- Result of one QualityValidationAgent.execute call. -/
structure ValRes where
  validated : String
  validationNotes : List String
  feedbackForSynthesis : List String
deriving DecidableEq, Repr

/-- The uncaught JavaScript error that aborts processQuery. -/
inductive JsError where
  | typeError
deriving DecidableEq, Repr

/-- Per-request outcomes of the agents, as parameters of the orchestrator
model: `retrieval` is the RetrievalAgent result (none = its execute threw,
caught at orchestrator.ts line 31); `synthRun i` and `valRun i` are the
results of the synthesis and validation agents on iteration i (none = that
call threw, caught per-stage at lines 58 and 75).  The web validator only
appends notes and cannot change control flow, so it is omitted. -/
structure OrchEnv where
  retrieval : Option Unit
  synthRun : Nat → Option SynthRes
  valRun : Nat → Option ValRes

/-- orchestrator.ts lines 39-110: the synthesize-validate loop.  The
accumulators `synth` and `valn` model the mutable `synthesis` and
`validation` variables, which start as null and keep their previous value
when a stage throws; lines 63 and 80 dereference them without a null
check, so a still-null value raises an uncaught TypeError that aborts
processQuery.  Returns the number of iterations run, and either the error
or the final validation value. -/
def orchLoop (oe : OrchEnv) :
    Option SynthRes → Option ValRes → Nat → Nat →
      Nat × Except JsError (Option ValRes)
  | _, valn, _, 0 => (0, .ok valn)
  | synth, valn, i, fuel + 1 =>
    let synth2 : Option SynthRes :=
      match oe.retrieval with
      | some _ =>
        match oe.synthRun i with
        | some s => some s
        | none => synth
      | none => synth
    match synth2 with
    | none => (1, .error .typeError)
    | some s =>
      let valn2 : Option ValRes :=
        match oe.retrieval with
        | some _ =>
          match oe.valRun i with
          | some v => some v
          | none => valn
        | none => valn
      match valn2 with
      | none => (1, .error .typeError)
      | some v =>
        if v.feedbackForSynthesis.isEmpty then (1, .ok (some v))
        else
          let r := orchLoop oe (some s) (some v) (i + 1) fuel
          (r.1 + 1, r.2)

/-- orchestrator.ts lines 14-137: processQuery.  The loop starts with null
synthesis and validation and runs for at most computeMaxIter iterations;
afterwards the answer is validation.validated when validation is non-null,
the empty string otherwise (line 111). -/
def processQuery (oe : OrchEnv) (maxIter : Int) :
    Nat × Except JsError String :=
  let r := orchLoop oe none none 0 (computeMaxIter maxIter)
  (r.1,
    r.2.map (fun valn =>
      match valn with
      | some v => v.validated
      | none => ""))

theorem orchLoop_count_le (oe : OrchEnv) :
    ∀ (fuel : Nat) (synth : Option SynthRes) (valn : Option ValRes) (i : Nat),
      (orchLoop oe synth valn i fuel).1 ≤ fuel := by
  intro fuel
  induction fuel with
  | zero => intro synth valn i; exact Nat.le_refl 0
  | succ f ih =>
    intro synth valn i
    unfold orchLoop
    cases hs : (match oe.retrieval with
      | some _ =>
        match oe.synthRun i with
        | some s => some s
        | none => synth
      | none => synth : Option SynthRes) with
    | none => exact Nat.succ_le_succ (Nat.zero_le f)
    | some s =>
      cases hv : (match oe.retrieval with
        | some _ =>
          match oe.valRun i with
          | some v => some v
          | none => valn
        | none => valn : Option ValRes) with
      | none => exact Nat.succ_le_succ (Nat.zero_le f)
      | some v =>
        by_cases hf : v.feedbackForSynthesis.isEmpty
        · simp only [hf, if_true]
          exact Nat.succ_le_succ (Nat.zero_le f)
        · simp only [hf, if_false]
          exact Nat.succ_le_succ (ih (some s) (some v) (i + 1))

theorem orchLoop_early_exit (oe : OrchEnv) (hret : oe.retrieval = some ()) :
    ∀ (j i fuel : Nat) (synth : Option SynthRes) (valn : Option ValRes),
      (∀ k, k ≤ j → (oe.synthRun (i + k)).isSome = true) →
      (∀ k, k ≤ j → (oe.valRun (i + k)).isSome = true) →
      (∀ k, k < j → ∀ v, oe.valRun (i + k) = some v →
        v.feedbackForSynthesis ≠ []) →
      (∀ v, oe.valRun (i + j) = some v → v.feedbackForSynthesis = []) →
      j < fuel →
      orchLoop oe synth valn i fuel = (j + 1, .ok (oe.valRun (i + j))) := by
  intro j
  induction j with
  | zero =>
    intro i fuel synth valn hsyn hval _ hstop hlt
    obtain ⟨f, rfl⟩ : ∃ f, fuel = f + 1 :=
      ⟨fuel - 1, by omega⟩
    obtain ⟨s, hs⟩ := Option.isSome_iff_exists.mp (hsyn 0 (Nat.le_refl 0))
    obtain ⟨v, hv⟩ := Option.isSome_iff_exists.mp (hval 0 (Nat.le_refl 0))
    rw [Nat.add_zero] at hs hv
    have hemp : v.feedbackForSynthesis = [] := by
      have := hstop v
      rw [Nat.add_zero] at this
      exact this hv
    unfold orchLoop
    rw [hret, hs, hv]
    simp only [hemp, List.isEmpty_nil, if_true]
    rw [show i + 0 = i by omega, hv]
  | succ j ih =>
    intro i fuel synth valn hsyn hval hloop hstop hlt
    obtain ⟨f, rfl⟩ : ∃ f, fuel = f + 1 := ⟨fuel - 1, by omega⟩
    obtain ⟨s, hs⟩ := Option.isSome_iff_exists.mp
      (hsyn 0 (Nat.zero_le _))
    obtain ⟨v, hv⟩ := Option.isSome_iff_exists.mp
      (hval 0 (Nat.zero_le _))
    rw [Nat.add_zero] at hs hv
    have hne : v.feedbackForSynthesis ≠ [] := by
      have := hloop 0 (Nat.succ_pos j) v
      rw [Nat.add_zero] at this
      exact this hv
    have hrec := ih (i + 1) f (some s) (some v)
      (fun k hk => by
        have := hsyn (k + 1) (Nat.succ_le_succ hk)
        rwa [show i + (k + 1) = i + 1 + k by omega] at this)
      (fun k hk => by
        have := hval (k + 1) (Nat.succ_le_succ hk)
        rwa [show i + (k + 1) = i + 1 + k by omega] at this)
      (fun k hk w hw => by
        refine hloop (k + 1) (Nat.succ_lt_succ hk) w ?_
        rwa [show i + (k + 1) = i + 1 + k by omega])
      (fun w hw => by
        refine hstop w ?_
        rwa [show i + (j + 1) = i + 1 + j by omega])
      (by omega)
    unfold orchLoop
    rw [hret, hs, hv]
    have hnemp : v.feedbackForSynthesis.isEmpty = false := by
      cases hfe : v.feedbackForSynthesis with
      | nil => exact absurd hfe hne
      | cons a t => rfl
    simp only [hnemp, Bool.false_eq_true, if_false]
    rw [hrec]
    rw [show i + 1 + j = i + (j + 1) by omega]

/-- Claim C5.  processQuery runs the synthesize-validate iteration at most
computeMaxIter times, where computeMaxIter maxIter = min maxIter 10 for a
positive maxIter and 2 otherwise (orchestrator.ts line 15); and as soon as
an iteration's Validator returns an empty feedbackForSynthesis list (all
earlier iterations having produced feedback and both agents having
succeeded up to it), the loop stops at that iteration.  The loop is a
total function of its fuel, so it always terminates within the bound. -/
theorem processQuery_iterations (oe : OrchEnv) (maxIter : Int) :
    (processQuery oe maxIter).1 ≤ computeMaxIter maxIter ∧
    (0 < maxIter → computeMaxIter maxIter = (min maxIter 10).toNat) ∧
    (¬ 0 < maxIter → computeMaxIter maxIter = 2) ∧
    (∀ j, oe.retrieval = some () →
      (∀ k, k ≤ j → (oe.synthRun k).isSome = true) →
      (∀ k, k ≤ j → (oe.valRun k).isSome = true) →
      (∀ k, k < j → ∀ v, oe.valRun k = some v →
        v.feedbackForSynthesis ≠ []) →
      (∀ v, oe.valRun j = some v → v.feedbackForSynthesis = []) →
      j < computeMaxIter maxIter →
      (processQuery oe maxIter).1 = j + 1) := by
  refine ⟨?_, ?_, ?_, ?_⟩
  · exact orchLoop_count_le oe (computeMaxIter maxIter) none none 0
  · intro h
    unfold computeMaxIter
    rw [if_pos h]
  · intro h
    unfold computeMaxIter
    rw [if_neg h]
  · intro j hret hsyn hval hloop hstop hj
    have h := orchLoop_early_exit oe hret j 0 (computeMaxIter maxIter)
      none none
      (fun k hk => by simpa using hsyn k hk)
      (fun k hk => by simpa using hval k hk)
      (fun k hk v hv => hloop k hk v (by simpa using hv))
      (fun v hv => hstop v (by simpa using hv))
      hj
    unfold processQuery
    rw [h]

/-- Witness for C5 at a concrete environment: retrieval succeeds, the first
iteration's validator produces feedback, the second returns none, maxIter
requests 5 iterations, and exactly 2 run (within the bound min 5 10 = 5). -/
theorem processQuery_iterations_witness :
    (let oe : OrchEnv :=
      { retrieval := some ()
        synthRun := fun _ => some { answer := "a", synthesisNotes := [] }
        valRun := fun i =>
          some { validated := "a", validationNotes := []
                 feedbackForSynthesis := if i = 0 then ["fix"] else [] } }
    (processQuery oe 5).1 = 2 ∧ computeMaxIter 5 = 5 ∧
      (processQuery oe 5).1 ≤ computeMaxIter 5) := by
  intro oe
  have h := processQuery_iterations oe 5
  refine ⟨?_, ?_, h.1⟩
  · refine h.2.2.2 1 rfl (fun k _ => rfl) (fun k _ => rfl) ?_ ?_ (by decide)
    · intro k hk v hv
      have hk0 : k = 0 := by omega
      subst hk0
      simp only [Option.some.injEq] at hv
      rw [← hv]
      simp
    · intro v hv
      simp only [Option.some.injEq] at hv
      rw [← hv]
      rfl
  · decide

/-- The C6 failing environment: retrieval succeeds, the synthesis agent
throws on every iteration (e.g. a generation-service outage). -/
def c6Env : OrchEnv :=
  { retrieval := some ()
    synthRun := fun _ => none
    valRun := fun _ =>
      some { validated := "", validationNotes := [],
             feedbackForSynthesis := [] } }

/-- Claim C6 evaluated at the failing input: with retrieval successful and
SynthesisAgent.execute throwing on the first iteration, the catch at
orchestrator.ts line 58 leaves `synthesis` null, and line 63
(synthesis.synthesisNotes) then raises an uncaught TypeError: processQuery
aborts with an error instead of completing with a degraded response, so a
synthesis failure -- not only a retrieval failure -- is terminal for the
request (handleChat turns the rejection into a 500 error payload). -/
theorem synthesis_throw_aborts_processQuery :
    processQuery c6Env 2 = (1, .error .typeError) ∧
    processQuery { c6Env with retrieval := none } 2 =
      (1, .error .typeError) := by
  constructor <;> rfl

/- ======================================================================
   ContextSelector (index.ts lines 802-838): pickContext (claims C2, C4)
   ====================================================================== -/

/-- index.ts line 807: the per-document cap. -/
def PER_DOC_CAP : Nat := 2

/-- index.ts line 808: the minimum number of distinct sources. -/
def MIN_DISTINCT_DOCS : Nat := 2

/-- A retrieved chunk as pickContext sees it (types.ts RetrievedChunk,
with the metadata fields it reads). -/
structure RetrievedChunk where
  id : String
  content : String
  title : Option String
  source : Option String
  docId : Option String
deriving DecidableEq, Repr

/-- index.ts line 816: String(metadata?.doc_id ?? "") -- a missing doc_id
becomes the empty string. -/
def docIdStr (c : RetrievedChunk) : String := c.docId.getD ""

/-- One entry of the rerank service response: {index, score}. -/
structure RerankItem where
  index : Nat
  score : ℚ
deriving DecidableEq, Repr

/-- One sorted candidate: the rerank score, the position of the chunk in
the candidates array (JavaScript object identity: two entries denote the
same object exactly when they carry the same position), and the chunk. -/
structure RankedCand where
  score : ℚ
  idx : Nat
  chunk : RetrievedChunk
deriving DecidableEq, Repr

/-- Stable insertion used by the descending sort: a new element passes
over elements with a strictly smaller score and lands after ties. -/
def insDesc (x : RankedCand) : List RankedCand → List RankedCand
  | [] => [x]
  | y :: ys => if x.score > y.score then x :: y :: ys else y :: insDesc x ys

/-- index.ts lines 811-814: .sort((a, b) => (b.r.score - a.r.score)), a
stable descending sort (the stable sort of a total preorder is unique, so
this insertion sort computes exactly what Array.prototype.sort does). -/
def sortDesc (l : List RankedCand) : List RankedCand :=
  l.foldl (fun acc x => insDesc x acc) []

/-- Number of selected chunks carrying the document id d. -/
def cntDoc (sel : List RankedCand) (d : String) : Nat :=
  (sel.filter (fun p => docIdStr p.chunk = d)).length

/-- index.ts lines 815-822: the greedy pass.  A chunk with a non-empty
docId already at the cap is skipped; otherwise it is pushed, and the loop
breaks once topRerank chunks are selected (checked after the push). -/
def greedyGo (topR : Nat) : List RankedCand → List RankedCand → List RankedCand
  | sel, [] => sel
  | sel, x :: rest =>
    if docIdStr x.chunk ≠ "" ∧ PER_DOC_CAP ≤ cntDoc sel (docIdStr x.chunk) then
      greedyGo topR sel rest
    else
      let sel2 := sel ++ [x]
      if topR ≤ sel2.length then sel2 else greedyGo topR sel2 rest

/-- The set of document ids of a selection (the Set built at line 824;
note it contains "" when a selected chunk has no doc_id). -/
def docIdSet (sel : List RankedCand) : Finset String :=
  (sel.map (fun p => docIdStr p.chunk)).toFinset

/-- index.ts lines 825-836: the minimum-distinct-sources post-pass.  It
skips already-selected chunks (selected.includes, i.e. same candidate
position), skips empty or already-present docIds, pushes only while
selected.length < topRerank, and stops once the distinct-docId set reaches
MIN_DISTINCT_DOCS. -/
def postGo (topR : Nat) :
    List RankedCand → Finset String → List RankedCand → List RankedCand
  | sel, _, [] => sel
  | sel, seen, x :: rest =>
    if sel.any (fun y => y.idx = x.idx) then postGo topR sel seen rest
    else if docIdStr x.chunk = "" ∨ docIdStr x.chunk ∈ seen then
      postGo topR sel seen rest
    else
      let sel2 := if sel.length < topR then sel ++ [x] else sel
      let seen2 :=
        if sel.length < topR then insert (docIdStr x.chunk) seen else seen
      if MIN_DISTINCT_DOCS ≤ seen2.card then sel2
      else postGo topR sel2 seen2 rest

/-- index.ts lines 802-838: pickContext, with the rerank service response
passed in as `reranked` (the projection to context blocks is split off
below; this is the `selected` list).  Entries whose index falls outside
the candidates array are dropped by the filter at line 813. -/
def pickContextSel (reranked : List RerankItem)
    (candidates : List RetrievedChunk) (topRerank : Nat) : List RankedCand :=
  if candidates.isEmpty then []
  else
    let pairs := reranked.filterMap (fun r =>
      (candidates.get? r.index).map (fun c =>
        { score := r.score, idx := r.index, chunk := c : RankedCand }))
    let sorted := sortDesc pairs
    let sel := greedyGo topRerank [] sorted
    let seen := docIdSet sel
    if seen.card < MIN_DISTINCT_DOCS then postGo topRerank sel seen sorted
    else sel

/-- index.ts line 837: the returned context blocks. -/
def pickContext (reranked : List RerankItem)
    (candidates : List RetrievedChunk) (topRerank : Nat) :
    List (String × String × String × String) :=
  (pickContextSel reranked candidates topRerank).map (fun p =>
    (p.chunk.id, p.chunk.title.getD "", p.chunk.source.getD "",
      p.chunk.content))

/- ======================================================================
   Claims C2 and C4: diversity properties of pickContext
   ====================================================================== -/

/-- Candidate chunks and rerank response used by the C2/C4 counterexamples
and witnesses: two chunks of document dA, one of document dB, three chunks
with an empty doc_id, and an identity-order rerank response. -/
def chunkA1 : RetrievedChunk :=
  { id := "a1", content := "x", title := none, source := none,
    docId := some "dA" }

def chunkA2 : RetrievedChunk :=
  { id := "a2", content := "y", title := none, source := none,
    docId := some "dA" }

def chunkB1 : RetrievedChunk :=
  { id := "b1", content := "z", title := none, source := none,
    docId := some "dB" }

def chunkE1 : RetrievedChunk :=
  { id := "e1", content := "x", title := none, source := none,
    docId := some "" }

def chunkE2 : RetrievedChunk :=
  { id := "e2", content := "y", title := none, source := none,
    docId := some "" }

def chunkE3 : RetrievedChunk :=
  { id := "e3", content := "z", title := none, source := none,
    docId := some "" }

def rerank3 : List RerankItem :=
  [{ index := 0, score := 3 }, { index := 1, score := 2 },
   { index := 2, score := 1 }]

/-- Counterexample to claim C2 as stated: the candidates hold chunks from
2 distinct documents and topRerank = 2, yet pickContext selects the two
top-scored chunks of document dA and the post-pass cannot add dB (it never
exceeds the topRerank capacity, which is already full), so only 1 distinct
document id is returned. -/
theorem pickContext_min_distinct_fails :
    chunkA1 ∈ [chunkA1, chunkA2, chunkB1] ∧
    chunkB1 ∈ [chunkA1, chunkA2, chunkB1] ∧
    docIdStr chunkA1 ≠ docIdStr chunkB1 ∧
    (docIdSet (pickContextSel rerank3 [chunkA1, chunkA2, chunkB1] 2)).card
      < MIN_DISTINCT_DOCS := by
  refine ⟨?_, ?_, ?_, ?_⟩ <;> decide

/-- Counterexample to claim C4 as stated: three candidate chunks all carry
the same docId "" (an absent doc_id is coerced to the empty string at
index.ts line 816), the per-document cap is skipped for the empty docId,
and with topRerank = 3 the selection holds 3 chunks sharing that same
docId -- more than PER_DOC_CAP = 2. -/
theorem pickContext_per_doc_cap_fails :
    cntDoc (pickContextSel rerank3 [chunkE1, chunkE2, chunkE3] 3) "" = 3 ∧
    2 < (3 : Nat) := by
  exact ⟨by decide, by decide⟩

theorem cntDoc_append (sel : List RankedCand) (x : RankedCand) (d : String) :
    cntDoc (sel ++ [x]) d =
      cntDoc sel d + (if docIdStr x.chunk = d then 1 else 0) := by
  unfold cntDoc
  rw [List.filter_append]
  rw [List.length_append]
  by_cases h : docIdStr x.chunk = d
  · simp [h]
  · simp [h]

theorem docIdSet_mem {sel : List RankedCand} {p : RankedCand}
    (h : p ∈ sel) : docIdStr p.chunk ∈ docIdSet sel := by
  unfold docIdSet
  rw [List.mem_toFinset]
  exact List.mem_map_of_mem _ h

theorem cntDoc_pos_mem {sel : List RankedCand} {d : String}
    (h : 0 < cntDoc sel d) : d ∈ docIdSet sel := by
  unfold cntDoc at h
  rw [List.length_pos] at h
  obtain ⟨p, hp⟩ := List.exists_mem_of_ne_nil _ h
  have := List.mem_filter.mp hp
  rw [← show docIdStr p.chunk = d by simpa using this.2]
  exact docIdSet_mem this.1

theorem greedyGo_cnt (topR : Nat) :
    ∀ (entries sel : List RankedCand),
      (∀ d, d ≠ "" → cntDoc sel d ≤ PER_DOC_CAP) →
      ∀ d, d ≠ "" → cntDoc (greedyGo topR sel entries) d ≤ PER_DOC_CAP := by
  intro entries
  induction entries with
  | nil => exact fun sel h => h
  | cons x rest ih =>
    intro sel hsel d hd
    unfold greedyGo
    by_cases hskip : docIdStr x.chunk ≠ "" ∧
        PER_DOC_CAP ≤ cntDoc sel (docIdStr x.chunk)
    · rw [if_pos hskip]
      exact ih sel hsel d hd
    · rw [if_neg hskip]
      have hsel2 : ∀ d2, d2 ≠ "" →
          cntDoc (sel ++ [x]) d2 ≤ PER_DOC_CAP := by
        intro d2 hd2
        rw [cntDoc_append]
        by_cases hx : docIdStr x.chunk = d2
        · rw [if_pos hx]
          have hlt : cntDoc sel (docIdStr x.chunk) < PER_DOC_CAP := by
            rcases not_and_or.mp hskip with h1 | h1
            · exact absurd (hx ▸ hd2) (by simpa using h1)
            · omega
          rw [hx] at hlt
          omega
        · rw [if_neg hx]
          have := hsel d2 hd2
          omega
      by_cases hbrk : topR ≤ (sel ++ [x]).length
      · rw [if_pos hbrk]
        exact hsel2 d hd
      · rw [if_neg hbrk]
        exact ih (sel ++ [x]) hsel2 d hd

theorem postGo_cnt (topR : Nat) :
    ∀ (entries sel : List RankedCand) (seen : Finset String),
      (∀ d, d ≠ "" → cntDoc sel d ≤ PER_DOC_CAP) →
      (∀ p ∈ sel, docIdStr p.chunk ∈ seen) →
      ∀ d, d ≠ "" → cntDoc (postGo topR sel seen entries) d ≤ PER_DOC_CAP := by
  intro entries
  induction entries with
  | nil => exact fun sel seen h _ => h
  | cons x rest ih =>
    intro sel seen hsel hseen d hd
    unfold postGo
    by_cases hinc : sel.any (fun y => y.idx = x.idx)
    · rw [if_pos hinc]
      exact ih sel seen hsel hseen d hd
    · rw [if_neg hinc]
      by_cases hdoc : docIdStr x.chunk = "" ∨ docIdStr x.chunk ∈ seen
      · rw [if_pos hdoc]
        exact ih sel seen hsel hseen d hd
      · rw [if_neg hdoc]
        push_neg at hdoc
        by_cases hcap : sel.length < topR
        · simp only [hcap, if_true]
          have hzero : cntDoc sel (docIdStr x.chunk) = 0 := by
            by_contra hz
            have hpos : 0 < cntDoc sel (docIdStr x.chunk) :=
              Nat.pos_of_ne_zero hz
            obtain ⟨p, hp, hpe⟩ : ∃ p ∈ sel, docIdStr p.chunk
                = docIdStr x.chunk := by
              unfold cntDoc at hpos
              rw [List.length_pos] at hpos
              obtain ⟨p, hp⟩ := List.exists_mem_of_ne_nil _ hpos
              have h2 := List.mem_filter.mp hp
              exact ⟨p, h2.1, by simpa using h2.2⟩
            exact hdoc.2 (hpe ▸ hseen p hp)
          have hsel2 : ∀ d2, d2 ≠ "" →
              cntDoc (sel ++ [x]) d2 ≤ PER_DOC_CAP := by
            intro d2 hd2
            rw [cntDoc_append]
            by_cases hx : docIdStr x.chunk = d2
            · rw [if_pos hx, ← hx, hzero]
              unfold PER_DOC_CAP
              omega
            · rw [if_neg hx]
              have := hsel d2 hd2
              omega
          have hseen2 : ∀ p ∈ sel ++ [x],
              docIdStr p.chunk ∈ insert (docIdStr x.chunk) seen := by
            intro p hp
            rcases List.mem_append.mp hp with h1 | h1
            · exact Finset.mem_insert_of_mem (hseen p h1)
            · rw [List.mem_singleton.mp h1]
              exact Finset.mem_insert_self _ _
          by_cases hstop : MIN_DISTINCT_DOCS ≤
              (insert (docIdStr x.chunk) seen).card
          · rw [if_pos hstop]
            exact hsel2 d hd
          · rw [if_neg hstop]
            exact ih (sel ++ [x]) (insert (docIdStr x.chunk) seen)
              hsel2 hseen2 d hd
        · simp only [hcap, if_false]
          by_cases hstop : MIN_DISTINCT_DOCS ≤ seen.card
          · rw [if_pos hstop]
            exact hsel d hd
          · rw [if_neg hstop]
            exact ih sel seen hsel hseen d hd

/-- Claim C4 amended.  The per-document cap of pickContext holds for every
non-empty docId: the selection never contains more than PER_DOC_CAP = 2
chunks sharing the same non-empty docId, the post-pass included.  (For the
empty docId -- chunks whose metadata carries no doc_id, coerced to "" --
the cap is deliberately skipped at index.ts line 818, and the
counterexample shows it can be exceeded.) -/
theorem pickContext_per_doc_cap (reranked : List RerankItem)
    (candidates : List RetrievedChunk) (topRerank : Nat) (d : String)
    (hd : d ≠ "") :
    cntDoc (pickContextSel reranked candidates topRerank) d ≤ PER_DOC_CAP := by
  unfold pickContextSel
  by_cases hc : candidates.isEmpty
  · rw [if_pos hc]
    unfold cntDoc PER_DOC_CAP
    simp
  · rw [if_neg hc]
    have hbase : ∀ d2, d2 ≠ "" →
        cntDoc ([] : List RankedCand) d2 ≤ PER_DOC_CAP := by
      intro d2 _
      unfold cntDoc PER_DOC_CAP
      simp
    have hg := greedyGo_cnt topRerank
      (sortDesc (reranked.filterMap (fun r =>
        (candidates.get? r.index).map (fun c =>
          { score := r.score, idx := r.index, chunk := c
            : RankedCand })))) [] hbase
    by_cases hcard : (docIdSet (greedyGo topRerank []
        (sortDesc (reranked.filterMap (fun r =>
          (candidates.get? r.index).map (fun c =>
            { score := r.score, idx := r.index, chunk := c
              : RankedCand })))))).card < MIN_DISTINCT_DOCS
    · simp only [hcard, if_true]
      refine postGo_cnt topRerank _ _ _ hg ?_ d hd
      intro p hp
      exact docIdSet_mem hp
    · simp only [hcard, if_false]
      exact hg d hd

/-- Witness for the amended C4 at a concrete input: document dA has two
chunks among the candidates and at most 2 are selected. -/
theorem pickContext_per_doc_cap_witness :
    cntDoc (pickContextSel rerank3 [chunkA1, chunkA2, chunkB1] 3) "dA"
      ≤ PER_DOC_CAP ∧ "dA" ≠ "" := by
  exact ⟨pickContext_per_doc_cap rerank3 [chunkA1, chunkA2, chunkB1] 3 "dA"
    (by decide), by decide⟩

theorem mem_insDesc {p x : RankedCand} {l : List RankedCand}
    (h : p ∈ insDesc x l) : p = x ∨ p ∈ l := by
  induction l with
  | nil => simpa [insDesc] using h
  | cons y ys ih =>
    unfold insDesc at h
    by_cases hs : x.score > y.score
    · rw [if_pos hs] at h
      rcases List.mem_cons.mp h with h1 | h1
      · exact Or.inl h1
      · exact Or.inr h1
    · rw [if_neg hs] at h
      rcases List.mem_cons.mp h with h1 | h1
      · exact Or.inr (h1 ▸ List.mem_cons_self _ _)
      · rcases ih h1 with h2 | h2
        · exact Or.inl h2
        · exact Or.inr (List.mem_cons_of_mem y h2)

theorem mem_sortDesc_aux {p : RankedCand} :
    ∀ (l acc : List RankedCand),
      p ∈ l.foldl (fun a x => insDesc x a) acc → p ∈ acc ∨ p ∈ l := by
  intro l
  induction l with
  | nil => exact fun acc h => Or.inl h
  | cons x xs ih =>
    intro acc h
    rw [List.foldl_cons] at h
    rcases ih (insDesc x acc) h with h1 | h1
    · rcases mem_insDesc h1 with h2 | h2
      · exact Or.inr (h2 ▸ List.mem_cons_self _ _)
      · exact Or.inl h2
    · exact Or.inr (List.mem_cons_of_mem x h1)

theorem insDesc_mem {x : RankedCand} (l : List RankedCand) :
    x ∈ insDesc x l := by
  induction l with
  | nil => exact List.mem_singleton.mpr rfl
  | cons y ys ih =>
    unfold insDesc
    by_cases hs : x.score > y.score
    · rw [if_pos hs]; exact List.mem_cons_self _ _
    · rw [if_neg hs]; exact List.mem_cons_of_mem y ih

theorem insDesc_keeps {p x : RankedCand} {l : List RankedCand}
    (h : p ∈ l) : p ∈ insDesc x l := by
  induction l with
  | nil => cases h
  | cons y ys ih =>
    unfold insDesc
    by_cases hs : x.score > y.score
    · rw [if_pos hs]; exact List.mem_cons_of_mem x h
    · rw [if_neg hs]
      rcases List.mem_cons.mp h with h1 | h1
      · exact h1 ▸ List.mem_cons_self _ _
      · exact List.mem_cons_of_mem y (ih h1)

theorem sortDesc_mem_aux {p : RankedCand} :
    ∀ (l acc : List RankedCand), p ∈ acc ∨ p ∈ l →
      p ∈ l.foldl (fun a x => insDesc x a) acc := by
  intro l
  induction l with
  | nil =>
    intro acc h
    rcases h with h | h
    · exact h
    · cases h
  | cons x xs ih =>
    intro acc h
    rw [List.foldl_cons]
    refine ih (insDesc x acc) ?_
    rcases h with h | h
    · exact Or.inl (insDesc_keeps h)
    · rcases List.mem_cons.mp h with h1 | h1
      · exact Or.inl (h1 ▸ insDesc_mem acc)
      · exact Or.inr h1

theorem mem_sortDesc {p : RankedCand} {l : List RankedCand} :
    p ∈ sortDesc l ↔ p ∈ l := by
  unfold sortDesc
  constructor
  · intro h
    rcases mem_sortDesc_aux l [] h with h1 | h1
    · cases h1
    · exact h1
  · intro h
    exact sortDesc_mem_aux l [] (Or.inr h)

theorem greedyGo_keeps (topR : Nat) :
    ∀ (entries sel : List RankedCand) {p : RankedCand}, p ∈ sel →
      p ∈ greedyGo topR sel entries := by
  intro entries
  induction entries with
  | nil => exact fun sel p h => h
  | cons x rest ih =>
    intro sel p h
    unfold greedyGo
    by_cases hskip : docIdStr x.chunk ≠ "" ∧
        PER_DOC_CAP ≤ cntDoc sel (docIdStr x.chunk)
    · rw [if_pos hskip]; exact ih sel h
    · rw [if_neg hskip]
      have h2 : p ∈ sel ++ [x] := List.mem_append.mpr (Or.inl h)
      by_cases hbrk : topR ≤ (sel ++ [x]).length
      · rw [if_pos hbrk]; exact h2
      · rw [if_neg hbrk]; exact ih (sel ++ [x]) h2

theorem greedyGo_sub (topR : Nat) :
    ∀ (entries sel : List RankedCand) {p : RankedCand},
      p ∈ greedyGo topR sel entries → p ∈ sel ∨ p ∈ entries := by
  intro entries
  induction entries with
  | nil => exact fun sel p h => Or.inl h
  | cons x rest ih =>
    intro sel p h
    unfold greedyGo at h
    by_cases hskip : docIdStr x.chunk ≠ "" ∧
        PER_DOC_CAP ≤ cntDoc sel (docIdStr x.chunk)
    · rw [if_pos hskip] at h
      rcases ih sel h with h1 | h1
      · exact Or.inl h1
      · exact Or.inr (List.mem_cons_of_mem x h1)
    · rw [if_neg hskip] at h
      have hsp : p ∈ sel ++ [x] → p ∈ sel ∨ p ∈ x :: rest := by
        intro h2
        rcases List.mem_append.mp h2 with h3 | h3
        · exact Or.inl h3
        · exact Or.inr ((List.mem_singleton.mp h3) ▸ List.mem_cons_self _ _)
      by_cases hbrk : topR ≤ (sel ++ [x]).length
      · rw [if_pos hbrk] at h
        exact hsp h
      · rw [if_neg hbrk] at h
        rcases ih (sel ++ [x]) h with h1 | h1
        · exact hsp h1
        · exact Or.inr (List.mem_cons_of_mem x h1)

theorem docIdSet_mem_iff {sel : List RankedCand} {d : String} :
    d ∈ docIdSet sel ↔ ∃ p ∈ sel, docIdStr p.chunk = d := by
  unfold docIdSet
  rw [List.mem_toFinset, List.mem_map]

theorem greedyGo_exhaust (topR : Nat) :
    ∀ (entries sel : List RankedCand),
      (greedyGo topR sel entries).length < topR →
      ∀ x ∈ entries, docIdStr x.chunk = "" ∨
        docIdStr x.chunk ∈ docIdSet (greedyGo topR sel entries) := by
  intro entries
  induction entries with
  | nil => intro sel _ x hx; cases hx
  | cons y rest ih =>
    intro sel hlen x hx
    unfold greedyGo at hlen ⊢
    by_cases hskip : docIdStr y.chunk ≠ "" ∧
        PER_DOC_CAP ≤ cntDoc sel (docIdStr y.chunk)
    · rw [if_pos hskip] at hlen ⊢
      rcases List.mem_cons.mp hx with he | hr
      · subst he
        right
        have hpos : 0 < cntDoc sel (docIdStr x.chunk) := by
          have := hskip.2
          unfold PER_DOC_CAP at this
          omega
        obtain ⟨p, hp, hpe⟩ := docIdSet_mem_iff.mp (cntDoc_pos_mem hpos)
        exact docIdSet_mem_iff.mpr
          ⟨p, greedyGo_keeps topR rest sel hp, hpe⟩
      · exact ih sel hlen x hr
    · rw [if_neg hskip] at hlen ⊢
      by_cases hbrk : topR ≤ (sel ++ [y]).length
      · rw [if_pos hbrk] at hlen
        omega
      · rw [if_neg hbrk] at hlen ⊢
        rcases List.mem_cons.mp hx with he | hr
        · subst he
          right
          refine docIdSet_mem_iff.mpr ⟨x, ?_, rfl⟩
          exact greedyGo_keeps topR rest (sel ++ [x])
            (List.mem_append.mpr (Or.inr (List.mem_singleton.mpr rfl)))
        · exact ih (sel ++ [y]) hlen x hr

theorem cntDoc_all {sel : List RankedCand} {d : String}
    (h : ∀ p ∈ sel, docIdStr p.chunk = d) : cntDoc sel d = sel.length := by
  unfold cntDoc
  rw [List.filter_eq_self.mpr (fun p hp => by simpa using h p hp)]

/-- The candidate pairs wired into pickContextSel. -/
def rankPairs (reranked : List RerankItem)
    (candidates : List RetrievedChunk) : List RankedCand :=
  reranked.filterMap (fun r =>
    (candidates.get? r.index).map (fun c =>
      { score := r.score, idx := r.index, chunk := c : RankedCand }))

theorem rankPairs_chunk_mem {reranked : List RerankItem}
    {candidates : List RetrievedChunk} {p : RankedCand}
    (h : p ∈ rankPairs reranked candidates) : p.chunk ∈ candidates := by
  unfold rankPairs at h
  obtain ⟨r, _, hr⟩ := List.mem_filterMap.mp h
  obtain ⟨c, hg, hfc⟩ := Option.map_eq_some'.mp hr
  have hpc : p.chunk = c := by rw [← hfc]
  rw [hpc]
  exact List.get?_mem hg

theorem rankPairs_covers {reranked : List RerankItem}
    {candidates : List RetrievedChunk} {c : RetrievedChunk}
    (hc : c ∈ candidates)
    (hcov : ∀ i, i < candidates.length → ∃ r ∈ reranked, r.index = i) :
    ∃ p ∈ rankPairs reranked candidates, p.chunk = c := by
  obtain ⟨⟨i, hi⟩, hg⟩ := List.mem_iff_get.mp hc
  obtain ⟨r, hrm, hri⟩ := hcov i hi
  refine ⟨{ score := r.score, idx := r.index, chunk := c }, ?_, rfl⟩
  unfold rankPairs
  refine List.mem_filterMap.mpr ⟨r, hrm, ?_⟩
  rw [hri, List.get?_eq_get hi, hg]
  rfl

/-- pickContextSel, rewritten through rankPairs (definitional). -/
theorem pickContextSel_def (reranked : List RerankItem)
    (candidates : List RetrievedChunk) (topRerank : Nat) :
    pickContextSel reranked candidates topRerank =
      if candidates.isEmpty then []
      else
        let sorted := sortDesc (rankPairs reranked candidates)
        let sel := greedyGo topRerank [] sorted
        if (docIdSet sel).card < MIN_DISTINCT_DOCS then
          postGo topRerank sel (docIdSet sel) sorted
        else sel := rfl

/-- Claim C2 amended.  The minimum-distinct-sources guarantee holds under
the conditions the code actually enforces it for: if every candidate
carries a non-empty docId, at least 2 distinct docIds occur among the
candidates, the rerank response covers every candidate index (as its
identity-order fallback does), and topRerank exceeds PER_DOC_CAP (so the
greedy pass cannot fill the whole capacity from one document), then the
selection contains at least MIN_DISTINCT_DOCS = 2 distinct document ids.
(As stated -- for every topRerank >= 2 -- the claim fails: with
topRerank = 2 the greedy pass may fill both slots from one document and
the post-pass never exceeds the topRerank capacity; see the
counterexample.) -/
theorem pickContext_min_distinct (reranked : List RerankItem)
    (candidates : List RetrievedChunk) (topRerank : Nat)
    (hall : ∀ c ∈ candidates, docIdStr c ≠ "")
    (hdist : ∃ c1 ∈ candidates, ∃ c2 ∈ candidates,
      docIdStr c1 ≠ docIdStr c2)
    (htop : PER_DOC_CAP < topRerank)
    (hcov : ∀ i, i < candidates.length → ∃ r ∈ reranked, r.index = i) :
    MIN_DISTINCT_DOCS ≤
      (docIdSet (pickContextSel reranked candidates topRerank)).card := by
  obtain ⟨c1, hc1, c2, hc2, hcne⟩ := hdist
  have hemp : candidates.isEmpty = false := by
    cases candidates with
    | nil => cases hc1
    | cons a l => rfl
  rw [pickContextSel_def]
  simp only [hemp, Bool.false_eq_true, if_false]
  obtain ⟨p1, hp1, hp1c⟩ := rankPairs_covers hc1 hcov
  obtain ⟨p2, hp2, hp2c⟩ := rankPairs_covers hc2 hcov
  have hs1 : p1 ∈ sortDesc (rankPairs reranked candidates) :=
    mem_sortDesc.mpr hp1
  have hs2 : p2 ∈ sortDesc (rankPairs reranked candidates) :=
    mem_sortDesc.mpr hp2
  have hcard : MIN_DISTINCT_DOCS ≤ (docIdSet (greedyGo topRerank []
      (sortDesc (rankPairs reranked candidates)))).card := by
    by_cases hlen : (greedyGo topRerank []
        (sortDesc (rankPairs reranked candidates))).length < topRerank
    · have hx1 := greedyGo_exhaust topRerank _ [] hlen p1 hs1
      have hx2 := greedyGo_exhaust topRerank _ [] hlen p2 hs2
      rw [hp1c] at hx1
      rw [hp2c] at hx2
      rcases hx1 with h1 | h1
      · exact absurd h1 (hall c1 hc1)
      rcases hx2 with h2 | h2
      · exact absurd h2 (hall c2 hc2)
      have := Finset.one_lt_card.mpr ⟨docIdStr c1, h1, docIdStr c2, h2, hcne⟩
      unfold MIN_DISTINCT_DOCS
      omega
    · by_contra hcon
      have hle1 : (docIdSet (greedyGo topRerank []
          (sortDesc (rankPairs reranked candidates)))).card ≤ 1 := by
        unfold MIN_DISTINCT_DOCS at hcon
        omega
      have hlen2 : topRerank ≤ (greedyGo topRerank []
          (sortDesc (rankPairs reranked candidates))).length := by omega
      have hne : greedyGo topRerank []
          (sortDesc (rankPairs reranked candidates)) ≠ [] := by
        intro he
        rw [he] at hlen2
        unfold PER_DOC_CAP at htop
        simp at hlen2
        omega
      obtain ⟨p0, hp0⟩ := List.exists_mem_of_ne_nil _ hne
      have halleq : ∀ p ∈ greedyGo topRerank []
          (sortDesc (rankPairs reranked candidates)),
          docIdStr p.chunk = docIdStr p0.chunk := by
        intro p hp
        exact Finset.card_le_one.mp hle1 _ (docIdSet_mem hp)
          _ (docIdSet_mem hp0)
      have hd0ne : docIdStr p0.chunk ≠ "" := by
        rcases greedyGo_sub topRerank _ [] hp0 with h | h
        · cases h
        · exact hall p0.chunk (rankPairs_chunk_mem (mem_sortDesc.mp h))
      have hcnt := greedyGo_cnt topRerank
        (sortDesc (rankPairs reranked candidates)) []
        (fun d _ => by unfold cntDoc PER_DOC_CAP; simp)
        (docIdStr p0.chunk) hd0ne
      rw [cntDoc_all halleq] at hcnt
      unfold PER_DOC_CAP at hcnt htop
      omega
  rw [if_neg (by omega)]
  exact hcard

/-- Witness for the amended C2 at a concrete input: all candidates carry a
docId, two documents occur, the rerank response covers every index, and
topRerank = 3 > PER_DOC_CAP, so the selection spans both documents. -/
theorem pickContext_min_distinct_witness :
    MIN_DISTINCT_DOCS ≤
      (docIdSet (pickContextSel rerank3 [chunkA1, chunkA2, chunkB1] 3)).card := by
  refine pickContext_min_distinct rerank3 [chunkA1, chunkA2, chunkB1] 3
    ?_ ?_ ?_ ?_
  · decide
  · exact ⟨chunkA1, by decide, chunkB1, by decide, by decide⟩
  · decide
  · decide

/- ======================================================================
   QualityValidationAgent.execute (agents/validationAgent.ts, shipped in
   the synthesisAgent.ts bundle, lines 48-170): claims C3 and C9
   ====================================================================== -/

/-- Lowercasing of a character list (String.prototype.toLowerCase and the
case-insensitive regex flag agree on the ASCII keywords involved). -/
def lowerL (s : List Char) : List Char := s.map Char.toLower

/-- Whether the first list begins the second. -/
def leadsWith : List Char → List Char → Bool
  | [], _ => true
  | _ :: _, [] => false
  | a :: as, b :: bs => a == b && leadsWith as bs

/-- Whether the first list occurs contiguously inside the second
(String.prototype.includes / an unanchored regex literal). -/
def hasSub (needle : List Char) : List Char → Bool
  | [] => leadsWith needle []
  | c :: cs => leadsWith needle (c :: cs) || hasSub needle cs

/-- Case-insensitive containment of a literal word, the meaning of the
/word/i.test(s) and includes-of-lowercased patterns in the validator. -/
def containsCI (hay needle : String) : Bool :=
  hasSub (lowerL needle.data) (lowerL hay.data)

/-- answer.split(regex of one or more newlines): segments between maximal
newline runs, with an empty leading/trailing segment when the answer
starts/ends with a newline. -/
def splitNL : List Char → List (List Char)
  | [] => [[]]
  | c :: cs =>
    let r := splitNL cs
    if c = '\n' then
      match cs with
      | '\n' :: _ => r
      | _ => [] :: r
    else
      match r with
      | h :: t => (c :: h) :: t
      | [] => [[c]]

/-- validationAgent lines 52: the line-level steps -- split on newline
runs, lines blank after trimming dropped. -/
def answerSteps (answer : String) : List String :=
  ((splitNL answer.data).map String.mk).filter
    (fun l => !(trimWS l.data).isEmpty)

/-- The stepwise-language pattern
/step|procedure|first|second|finally|conclusion|summary/i. -/
def stepwiseKws : List String :=
  ["step", "procedure", "first", "second", "finally", "conclusion",
   "summary"]

def isStepwise (s : String) : Bool :=
  stepwiseKws.any (fun w => containsCI s w)

/-- The trailing-citation regex match of a step:
/\[(#\d+|W\d+)\]$/ -- returns the captured ref ("#n" or "Wn"). -/
def trailingRef (s : List Char) : Option (List Char) :=
  match s.reverse with
  | ']' :: rest =>
    let ds := rest.takeWhile digitChar
    if ds.isEmpty then none
    else
      match rest.drop ds.length with
      | '#' :: '[' :: _ => some ('#' :: ds.reverse)
      | 'W' :: '[' :: _ => some ('W' :: ds.reverse)
      | _ => none
  | _ => none

/-- One attempted citation-token parse after an opening bracket: returns
the full match (brackets included) and the rest of the input. -/
def refAfterBracket : List Char → Option (List Char × List Char)
  | c :: cs =>
    if c = '#' ∨ c = 'W' then
      let ds := cs.takeWhile digitChar
      if ds.isEmpty then none
      else
        match cs.drop ds.length with
        | ']' :: rest => some ('[' :: c :: ds ++ [']'], rest)
        | _ => none
    else none
  | [] => none

/-- All non-overlapping matches of the global citation regex
/\[(#\d+|W\d+)\]/g in a step, scanning left to right (full match texts).
The fuel is the input length; every recursive call consumes at least one
character, so the fuel never runs out. -/
def scanRefsF : Nat → List Char → List (List Char)
  | 0, _ => []
  | _ + 1, [] => []
  | fuel + 1, c :: cs =>
    if c = '[' then
      match refAfterBracket cs with
      | some (m, rest) => m :: scanRefsF fuel rest
      | none => scanRefsF fuel cs
    else scanRefsF fuel cs

def scanRefs (s : List Char) : List (List Char) := scanRefsF s.length s

/-- String.prototype.endsWith on character lists. -/
def endsWithL (s suffix : List Char) : Bool :=
  leadsWith suffix.reverse s.reverse

/-- The citation bookkeeping accumulated over the steps (the uncited /
malformed / seen / duplicate / all sets of validationAgent lines 53-89;
JS Sets iterate in insertion order, modelled by dedup-append lists). -/
structure CiteScan where
  uncitedTexts : List String
  malformedSteps : List String
  malformed : Nat
  seen : List String
  dups : List String
  allRefs : List String
deriving DecidableEq, Repr

def citeStep (acc : CiteScan) (st : String) : CiteScan :=
  if isStepwise st then
    match trailingRef st.data with
    | none => { acc with uncitedTexts := acc.uncitedTexts ++ [st] }
    | some ref =>
      let refStr := String.mk ref
      let ms := scanRefs st.data
      let isMal := 1 < ms.length ∨
        (ms.length = 1 ∧
          endsWithL (trimWS st.data) ((ms.get? 0).getD []) = false)
      let acc2 :=
        if isMal then
          { acc with
            malformed := acc.malformed + 1,
            malformedSteps := acc.malformedSteps ++ [st] }
        else acc
      { acc2 with
        dups := if refStr ∈ acc2.seen then addUniq acc2.dups refStr
          else acc2.dups
        seen := addUniq acc2.seen refStr
        allRefs := addUniq acc2.allRefs refStr }
  else acc

def citeScan (answer : String) : CiteScan :=
  (answerSteps answer).foldl citeStep
    { uncitedTexts := [], malformedSteps := [], malformed := 0,
      seen := [], dups := [], allRefs := [] }

/-- validationAgent lines 61-66: the valid refs, one per context block
position plus W1..W10. -/
def validRefs (n : Nat) : List String :=
  (List.range n).map (fun i => "#" ++ toString (i + 1)) ++
    (List.range 10).map (fun i => "W" ++ toString (i + 1))

/-- validationAgent line 94: the orphan citations -- the collected refs
not in the valid set, in first-seen order. -/
def orphanRefs (answer : String) (n : Nat) : List String :=
  (citeScan answer).allRefs.filter (fun r => !decide (r ∈ validRefs n))

/-- A context block as the validator reads it (only content and count are
used). -/
structure ValCtxBlock where
  content : String
deriving DecidableEq, Repr

/-- A single apostrophe, for note texts quoting step keywords. -/
def aposStr : String := String.mk ['\x27']

def contradictionWords : List String :=
  ["disagree", "conflict", "contradict", "inconsistent", "opposite",
   "contrary"]

def contrastWords : List String :=
  ["however", "but", "although", "yet", "nevertheless",
   "on the other hand"]

namespace QualityValidationAgent

/-- The core validation notes (validationAgent lines 90-128), before the
input synthesis notes are appended: uncited/malformed/duplicate/orphan
citation findings, stepwise structure and completeness, the contradiction
heuristic, and the fact-support heuristic. -/
def coreNotes (answer : String) (contextBlocks : List ValCtxBlock) :
    List String :=
  let sc := citeScan answer
  let orphans := orphanRefs answer contextBlocks.length
  let stepsL := answerSteps answer
  let contextText :=
    String.intercalate "\n" (contextBlocks.map ValCtxBlock.content)
  let unsupported := stepsL.filter (fun st =>
    isStepwise st && !contextText.isEmpty &&
      !hasSub ((lowerL st.data).take 20) (lowerL contextText.data))
  (if sc.uncitedTexts.length > 0 then
    ["Uncited steps: " ++ toString sc.uncitedTexts.length] else []) ++
  (if sc.malformed > 0 then
    ["Malformed citations: " ++ toString sc.malformed] else []) ++
  (if !sc.dups.isEmpty then
    ["Duplicate citations: " ++ String.intercalate ", " sc.dups] else []) ++
  (if !orphans.isEmpty then
    ["Orphan citations: " ++ String.intercalate ", " orphans] else []) ++
  (if !sc.malformedSteps.isEmpty then
    ["Malformed citation steps: " ++ toString sc.malformedSteps.length]
   else []) ++
  (if !stepsL.any isStepwise then
    ["Answer may lack stepwise structure."] else []) ++
  (["first", "second", "finally"].filterMap (fun key =>
    if !stepsL.any (fun st => containsCI st key) then
      some ("Stepwise completeness: missing step " ++ aposStr ++ key ++ aposStr ++ ".")
    else none)) ++
  (if !contradictionWords.any (fun w => containsCI answer w) &&
      contrastWords.any (fun w => containsCI answer w) then
    ["Potential contradiction or contrast not explicitly surfaced."]
   else []) ++
  (if unsupported.length > 0 then
    ["Fact-check: " ++ toString unsupported.length ++
      " step(s) not clearly supported by context."] else [])

/-- validationAgent lines 129-159: the feedback list built from the core
notes (non-empty exactly when they are), quoting the offending steps. -/
def feedbackList (answer : String) (contextBlocks : List ValCtxBlock)
    (notes : List String) : List String :=
  let sc := citeScan answer
  let orphans := orphanRefs answer contextBlocks.length
  let core := coreNotes answer contextBlocks
  if core.length > 0 then
    ["Validation feedback:"] ++ core ++
    (if sc.uncitedTexts.length > 0 then
      ["Please add citations to the following uncited steps:"] ++
        (List.range sc.uncitedTexts.length).map (fun i =>
          "Step " ++ toString (i + 1) ++ ": " ++
            ((sc.uncitedTexts.get? i).getD ""))
     else []) ++
    (if sc.malformedSteps.length > 0 then
      ["Please fix malformed citations in the following steps:"] ++
        (List.range sc.malformedSteps.length).map (fun i =>
          "Step " ++ toString (i + 1) ++ ": " ++
            ((sc.malformedSteps.get? i).getD ""))
     else []) ++
    (if !sc.dups.isEmpty then
      ["Please avoid duplicate citations: " ++
        String.intercalate ", " sc.dups] else []) ++
    (if !orphans.isEmpty then
      ["Please remove or fix orphan citations: " ++
        String.intercalate ", " orphans] else []) ++
    notes
  else []

/-- validationAgent lines 49-169: QualityValidationAgent.execute.  The
validated answer is the input answer with the [Validation Notes] block
appended when any notes exist; the full note list is the core notes
followed by the input synthesis notes. -/
def execute (answer : String) (contextBlocks : List ValCtxBlock)
    (notes : List String) : ValRes :=
  let validationNotes := coreNotes answer contextBlocks ++ notes
  { validated := answer ++
      (if !validationNotes.isEmpty then
        "\n\n[Validation Notes]\n- " ++
          String.intercalate "\n- " validationNotes
       else "")
    validationNotes := validationNotes
    feedbackForSynthesis := feedbackList answer contextBlocks notes }

end QualityValidationAgent

/- ======================================================================
   Claim C3: orphan-citation reporting
   ====================================================================== -/

/-- Counterexample to claim C3 as stated: the answer "hello [#5]" contains
the citation ref token #5, which is outside {#1..#N} ∪ {W1..W10} for
N = 0 context blocks; yet the validator only orphan-checks the trailing
citation of lines matching the stepwise pattern, this line matches no
stepwise keyword, so no ref is collected and no orphan citation is
reported in the validation notes. -/
theorem orphan_not_reported_for_nonstep_line :
    (scanRefs ("hello [#5]").data).map String.mk = ["[#5]"] ∧
    "#5" ∉ validRefs ([] : List ValCtxBlock).length ∧
    orphanRefs "hello [#5]" ([] : List ValCtxBlock).length = [] ∧
    ∀ note ∈ (QualityValidationAgent.execute "hello [#5]" [] []).validationNotes,
      hasSub ("Orphan").data note.data = false := by
  refine ⟨?_, ?_, ?_, ?_⟩ <;> decide

/-- Claim C3 amended.  The orphan check covers exactly the refs collected
as the trailing citation token of stepwise lines: for every answer, every
context-block list and every synthesis-note list, each collected ref that
is not in {#1..#N} ∪ {W1..W10} appears in the orphan list, and the
"Orphan citations" note listing them is reported in the validationNotes of
QualityValidationAgent.execute.  (Ref tokens elsewhere -- on non-stepwise
lines, or not in trailing position -- are not orphan-checked, as the
counterexample shows.) -/
theorem orphan_reported (answer : String) (contextBlocks : List ValCtxBlock)
    (notes : List String) (r : String)
    (hr : r ∈ (citeScan answer).allRefs)
    (hnv : r ∉ validRefs contextBlocks.length) :
    r ∈ orphanRefs answer contextBlocks.length ∧
    ("Orphan citations: " ++ String.intercalate ", "
        (orphanRefs answer contextBlocks.length)) ∈
      (QualityValidationAgent.execute answer contextBlocks
        notes).validationNotes := by
  have hro : r ∈ orphanRefs answer contextBlocks.length := by
    unfold orphanRefs
    rw [List.mem_filter]
    exact ⟨hr, by simpa using hnv⟩
  refine ⟨hro, ?_⟩
  have hne : (orphanRefs answer contextBlocks.length).isEmpty = false := by
    cases ho : orphanRefs answer contextBlocks.length with
    | nil => rw [ho] at hro; cases hro
    | cons a t => rfl
  show _ ∈ QualityValidationAgent.coreNotes answer contextBlocks ++ notes
  refine List.mem_append.mpr (Or.inl ?_)
  unfold QualityValidationAgent.coreNotes
  simp only [hne, Bool.not_false, if_true]
  refine List.mem_append.mpr (Or.inl ?_)
  refine List.mem_append.mpr (Or.inl ?_)
  refine List.mem_append.mpr (Or.inl ?_)
  refine List.mem_append.mpr (Or.inl ?_)
  refine List.mem_append.mpr (Or.inl ?_)
  refine List.mem_append.mpr (Or.inr ?_)
  exact List.mem_singleton.mpr rfl

/-- Witness for the amended C3 at a concrete input: a stepwise line ending
in [#5] with no context blocks; #5 is collected, is invalid, and the
orphan note appears. -/
theorem orphan_reported_witness :
    "#5" ∈ orphanRefs "First, the MTU is 23 [#5]" 0 ∧
    ("Orphan citations: " ++ String.intercalate ", "
        (orphanRefs "First, the MTU is 23 [#5]" 0)) ∈
      (QualityValidationAgent.execute "First, the MTU is 23 [#5]" []
        []).validationNotes := by
  have h := orphan_reported "First, the MTU is 23 [#5]" [] [] "#5"
    (by decide) (by decide)
  exact h

/- ======================================================================
   Claim C9: validation only annotates, never rewrites the answer
   ====================================================================== -/

/-- Claim C9.  For every answer, context blocks and synthesis notes, the
validated string of QualityValidationAgent.execute begins with the input
answer unmodified; the only change is an optional appended
"[Validation Notes]" block (present exactly when any notes were produced),
so validation never blocks, truncates or rewrites the answer. -/
theorem execute_validated (answer : String)
    (contextBlocks : List ValCtxBlock) (notes : List String) :
    (QualityValidationAgent.execute answer contextBlocks notes).validated =
      answer ++
        (if !(QualityValidationAgent.execute answer contextBlocks
            notes).validationNotes.isEmpty then
          "\n\n[Validation Notes]\n- " ++ String.intercalate "\n- "
            (QualityValidationAgent.execute answer contextBlocks
              notes).validationNotes
         else "") := rfl

theorem validation_only_appends (answer : String)
    (contextBlocks : List ValCtxBlock) (notes : List String) :
    ∃ s, (QualityValidationAgent.execute answer contextBlocks
        notes).validated = answer ++ s ∧
      (((QualityValidationAgent.execute answer contextBlocks
          notes).validationNotes = [] ∧ s = "") ∨
        ((QualityValidationAgent.execute answer contextBlocks
            notes).validationNotes ≠ [] ∧
          s = "\n\n[Validation Notes]\n- " ++ String.intercalate "\n- "
            (QualityValidationAgent.execute answer contextBlocks
              notes).validationNotes)) := by
  cases hn : (QualityValidationAgent.execute answer contextBlocks
      notes).validationNotes with
  | nil =>
    refine ⟨"", ?_, Or.inl ⟨rfl, rfl⟩⟩
    rw [execute_validated, hn]
    rfl
  | cons a t =>
    refine ⟨"\n\n[Validation Notes]\n- " ++ String.intercalate "\n- "
      (a :: t), ?_, Or.inr ⟨List.cons_ne_nil a t, rfl⟩⟩
    rw [execute_validated, hn]
    rfl
